import Mathlib

/-!
Verification of the optimal binary pebbling core of the repository
(`demos` notebook on multiparty one-way hash chains).

The source code being modelled, with `f` an arbitrary one-way function:

  tS = lambda k, r: 0 if r < 2**(k-1) else
         ((k+r)%2 + k+1 - ((2*r)%(2**(2**k-r).bit_length())).bit_length()) // 2

  def P(k, x):  # Recursive pebbler outputs {f^i(x)}_{i=0}^{n-1} in reverse, n=2^k.
      y = [None]*k + [x]
      i = k; g = 0
      for r in range(1, 2**k):
          for _ in range(tS(k, r)):
              z = y[i]
              if g == 0: i -= 1; g = 2**i
              y[i] = f(z)
              g -= 1
          yield
      yield y[0]
      for v in itertools.zip_longest(*(P(i-1, y[i]) for i in range(1, k+1))):
          yield next(filter(None, v))

Conventions of the embedding:
* machine integers are `Nat`; Python's `//` and `%` on the nonnegative values
  appearing here agree with `Nat` division and remainder;
* a slot that holds `None` and the `Pending` round output are both `none`
  (the Python code makes exactly the same conflation: `yield` yields `None`,
  `zip_longest` fills with `None`, and `filter(None, v)` drops `None`);
* the generator is modelled as the full list of its round outputs, each
  paired with the number of one-way-function evaluations performed in that
  round (an advance applies `f` when the slot it reads is populated, exactly
  when Python's `f(z)` is an actual evaluation);
* the recursion of `P` on strictly smaller orders is realised with a fuel
  argument (`fuel ≥ k` suffices, and is proved irrelevant below), keeping
  every definition computable by kernel reduction.
-/

/-- Python's `int.bit_length` for nonnegative integers, via a structural fuel
argument so that it reduces in the kernel: `bitLenF fuel n` computes the bit
length of `n` provided `n ≤ fuel`. -/
def bitLenF : Nat → Nat → Nat
  | 0, _ => 0
  | fuel + 1, n => if n = 0 then 0 else bitLenF fuel (n / 2) + 1

/-- Bit length of a natural number: `bitLen 0 = 0`, and `2^(b-1) ≤ n < 2^b`
gives `bitLen n = b`. -/
def bitLen (n : Nat) : Nat := bitLenF n n

theorem bitLenF_congr : ∀ fuel fuel' n : Nat, n ≤ fuel → n ≤ fuel' →
    bitLenF fuel n = bitLenF fuel' n := by
  intro fuel
  induction fuel with
  | zero => intro fuel' n h h'; interval_cases n; cases fuel' <;> simp [bitLenF]
  | succ fl ih =>
    intro fuel' n h h'
    match fuel', n with
    | 0, n => interval_cases n; simp [bitLenF]
    | fl' + 1, 0 => simp [bitLenF]
    | fl' + 1, n + 1 =>
      simp only [bitLenF, Nat.succ_ne_zero, if_false]
      have h2 : (n + 1) / 2 ≤ fl := by omega
      have h2' : (n + 1) / 2 ≤ fl' := by omega
      rw [ih fl' _ h2 h2']

/-- Recurrence for `bitLen`, mirroring the obvious recursion on binary digits. -/
theorem bitLen_rec (n : Nat) : bitLen n = if n = 0 then 0 else bitLen (n / 2) + 1 := by
  cases n with
  | zero => simp [bitLen, bitLenF]
  | succ m =>
    simp only [bitLen, bitLenF, Nat.succ_ne_zero, if_false]
    exact congrArg (· + 1) (bitLenF_congr m ((m + 1) / 2) ((m + 1) / 2)
      (Nat.lt_succ_iff.mp (Nat.div_lt_self (Nat.succ_pos m) Nat.one_lt_two))
      (le_refl _))

theorem bitLen_zero : bitLen 0 = 0 := rfl

theorem bitLen_lt_two_pow (n : Nat) : n < 2 ^ bitLen n := by
  induction n using Nat.strong_induction_on with
  | _ n ih =>
    cases n with
    | zero => simp [bitLen_zero]
    | succ m =>
      rw [bitLen_rec]
      simp only [Nat.succ_ne_zero, if_false]
      have hd : (m + 1) / 2 < m + 1 := Nat.div_lt_self (Nat.succ_pos m) Nat.one_lt_two
      have := ih ((m + 1) / 2) hd
      have h2 : m + 1 < 2 * 2 ^ bitLen ((m + 1) / 2) := by
        omega
      calc m + 1 < 2 * 2 ^ bitLen ((m + 1) / 2) := h2
        _ = 2 ^ (bitLen ((m + 1) / 2) + 1) := by ring

theorem two_pow_pred_le_of_bitLen (n : Nat) (h : n ≠ 0) : 2 ^ (bitLen n - 1) ≤ n := by
  induction n using Nat.strong_induction_on with
  | _ n ih =>
    cases n with
    | zero => exact absurd rfl h
    | succ m =>
      rw [bitLen_rec]
      simp only [Nat.succ_ne_zero, if_false, Nat.add_sub_cancel]
      by_cases hm : (m + 1) / 2 = 0
      · have : m = 0 := by omega
        subst this; simp [hm, bitLen_zero]
      · have hd : (m + 1) / 2 < m + 1 := Nat.div_lt_self (Nat.succ_pos m) Nat.one_lt_two
        have hle := ih ((m + 1) / 2) hd hm
        have hb1 : 1 ≤ bitLen ((m + 1) / 2) := by
          by_contra hcon
          have hb0 : bitLen ((m + 1) / 2) = 0 := by omega
          have hz := bitLen_lt_two_pow ((m + 1) / 2)
          rw [hb0, pow_zero] at hz
          omega
        calc 2 ^ bitLen ((m + 1) / 2)
            = 2 * 2 ^ (bitLen ((m + 1) / 2) - 1) := by
              rw [← pow_succ']
              congr 1
              omega
          _ ≤ 2 * ((m + 1) / 2) := by omega
          _ ≤ m + 1 := by omega

theorem bitLen_le_of_lt_two_pow {n b : Nat} (h : n < 2 ^ b) : bitLen n ≤ b := by
  by_contra hcon
  have h1 : b ≤ bitLen n - 1 := by omega
  have h2 : n ≠ 0 := by
    intro h0; rw [h0, bitLen_zero] at hcon; omega
  have := two_pow_pred_le_of_bitLen n h2
  have := Nat.pow_le_pow_right (by omega : 0 < 2) h1
  omega

/-- Characterisation: `bitLen n = b + 1` exactly on `[2^b, 2^(b+1))`. -/
theorem bitLen_eq_succ {n b : Nat} (h1 : 2 ^ b ≤ n) (h2 : n < 2 ^ (b + 1)) :
    bitLen n = b + 1 := by
  have hub := bitLen_le_of_lt_two_pow h2
  have hn0 : n ≠ 0 := by have : 0 < 2 ^ b := Nat.pos_pow_of_pos b (by omega); omega
  have hlb := two_pow_pred_le_of_bitLen n hn0
  have hlt := bitLen_lt_two_pow n
  by_contra hcon
  have hble : bitLen n ≤ b := by omega
  have : 2 ^ bitLen n ≤ 2 ^ b := Nat.pow_le_pow_right (by omega) hble
  omega

theorem bitLen_two_pow (j : Nat) : bitLen (2 ^ j) = j + 1 :=
  bitLen_eq_succ (le_refl _) (by
    have : 2 ^ j < 2 ^ (j + 1) := Nat.pow_lt_pow_right (by omega) (Nat.lt_succ_self j)
    exact this)

theorem bitLen_two_mul {n : Nat} (h : n ≠ 0) : bitLen (2 * n) = bitLen n + 1 := by
  rw [bitLen_rec]
  have h2 : 2 * n ≠ 0 := by omega
  simp only [h2, if_false]
  have h3 : 2 * n / 2 = n := by omega
  rw [h3]

theorem bitLen_pos {n : Nat} (h : n ≠ 0) : 1 ≤ bitLen n := by
  by_contra hcon
  have hb : bitLen n = 0 := by omega
  have := bitLen_lt_two_pow n
  rw [hb] at this
  omega

/-- The schedule formula, copied from the source
(`tS = lambda k, r: 0 if r < 2**(k-1) else
((k+r)%2 + k+1 - ((2*r)%(2**(2**k-r).bit_length())).bit_length()) // 2`).
Subtraction is `Nat` subtraction; on the domain `1 ≤ r ≤ 2^k - 1` actually
used by the pebbler the subtrahend never exceeds the minuend, and for `k = 0`
Python's fractional bound `2**(-1) = 0.5` makes `r < 2**(k-1)` false for every
round `r ≥ 1`, just as `r < 2^0 = 1` does here. -/
def tS (k r : Nat) : Nat :=
  if r < 2 ^ (k - 1) then 0
  else ((k + r) % 2 + k + 1 - bitLen (2 * r % 2 ^ bitLen (2 ^ k - r))) / 2

example : tS 2 1 = 0 := by decide
example : tS 2 2 = 1 := by decide
example : tS 2 3 = 2 := by decide
example : tS 3 4 = 2 := by decide
example : tS 3 5 = 1 := by decide
example : tS 1 1 = 1 := by decide
example : tS 4 15 = 3 := by decide

/-- Auxiliary quantity in the analysis of `tS`: the bit length of
`(2r) mod 2^(bitLen (2^k − r))` expressed through `s = 2^k − r` alone. -/
def ell (s : Nat) : Nat :=
  if s = 2 ^ (bitLen s - 1) then 0 else bitLen (2 ^ bitLen s - s) + 1

/-- The value of `tS k (2^k − s)` as a function of `k` and `s`. -/
def termS (k s : Nat) : Nat := ((k + s) % 2 + k + 1 - ell s) / 2

theorem ell_le {k s : Nat} (h1 : 1 ≤ s) (h2 : s ≤ 2 ^ (k - 1))
    (hnp : s ≠ 2 ^ (bitLen s - 1)) : ell s + 1 ≤ k := by
  have hb1 : 1 ≤ bitLen s := bitLen_pos (by omega)
  have hlb := two_pow_pred_le_of_bitLen s (by omega)
  have hub := bitLen_lt_two_pow s
  -- s is strictly between consecutive powers of two
  have hslt : 2 ^ (bitLen s - 1) < s := lt_of_le_of_ne hlb (by
    intro hc; exact hnp hc.symm)
  -- hence s < 2^(k-1) strictly, so bitLen s ≤ k - 1
  have hbk : bitLen s ≤ k - 1 := by
    rcases Nat.lt_or_ge s (2 ^ (k - 1)) with hlt | hge
    · exact bitLen_le_of_lt_two_pow hlt
    · exfalso
      have hseq : s = 2 ^ (k - 1) := by omega
      rw [hseq, bitLen_two_pow, Nat.add_sub_cancel] at hnp
      exact hnp rfl
  -- u := 2^(bitLen s) - s satisfies u < 2^(bitLen s - 1)
  have hu : 2 ^ bitLen s - s < 2 ^ (bitLen s - 1) := by
    have hsplit : 2 ^ bitLen s = 2 * 2 ^ (bitLen s - 1) := by
      rw [← pow_succ']
      congr 1
      omega
    omega
  have := bitLen_le_of_lt_two_pow hu
  have hk1 : 1 ≤ k - 1 := le_trans hb1 hbk
  rw [ell, if_neg hnp]
  omega

theorem ell_two_pow (j : Nat) : ell (2 ^ j) = 0 := by
  rw [ell, if_pos]
  rw [bitLen_two_pow, Nat.add_sub_cancel]

/-- Rewriting `tS` on the active half of the build phase: for `1 ≤ s ≤ 2^(k-1)`
and `k ≥ 1`, round `r := 2^k − s` performs `termS k s` advances. -/
theorem tS_sform {k s : Nat} (hk : 1 ≤ k) (h1 : 1 ≤ s) (h2 : s ≤ 2 ^ (k - 1)) :
    tS k (2 ^ k - s) = termS k s := by
  have hpow : 2 ^ k = 2 * 2 ^ (k - 1) := by
    rw [← pow_succ']
    congr 1
    omega
  have hple : 2 ^ (k - 1) ≤ 2 ^ k - s := by omega
  rw [tS, if_neg (by omega)]
  -- the inner argument of the first bit length reduces to s
  have hsub : 2 ^ k - (2 ^ k - s) = s := by omega
  rw [hsub]
  -- parity of k + r agrees with parity of k + s
  have hpar : (k + (2 ^ k - s)) % 2 = (k + s) % 2 := by omega
  rw [hpar]
  -- now identify the modulus computation with ell
  have hb1 : 1 ≤ bitLen s := bitLen_pos (by omega)
  have hlb := two_pow_pred_le_of_bitLen s (by omega)
  have hub := bitLen_lt_two_pow s
  have hble : bitLen s ≤ k := by
    apply bitLen_le_of_lt_two_pow
    have : 2 ^ (k - 1) < 2 ^ k := by omega
    omega
  have hmod : 2 * (2 ^ k - s) % 2 ^ bitLen s = 2 * (2 ^ bitLen s - s) % 2 ^ bitLen s := by
    have hdvd : 2 ^ bitLen s ∣ 2 * (2 ^ k - s) - 2 * (2 ^ bitLen s - s) := by
      have heq : 2 * (2 ^ k - s) - 2 * (2 ^ bitLen s - s) = 2 ^ k * 2 - 2 ^ bitLen s * 2 := by
        omega
      rw [heq]
      apply Nat.dvd_sub'
      · exact Dvd.dvd.mul_right (Nat.pow_dvd_pow 2 hble) 2
      · exact Dvd.dvd.mul_right dvd_rfl 2
    have hle2 : 2 * (2 ^ bitLen s - s) ≤ 2 * (2 ^ k - s) := by
      have : 2 ^ bitLen s ≤ 2 ^ k := Nat.pow_le_pow_right (by omega) hble
      omega
    obtain ⟨c, hc⟩ := hdvd
    have h2k : 2 * (2 ^ k - s) = 2 * (2 ^ bitLen s - s) + 2 ^ bitLen s * c := by omega
    rw [h2k, Nat.add_mul_mod_self_left]
  rw [hmod]
  by_cases hpow2 : s = 2 ^ (bitLen s - 1)
  · -- s is a power of two: the remainder is zero, ell s = 0
    have hm0 : 2 * (2 ^ bitLen s - s) % 2 ^ bitLen s = 0 := by
      have h2s : 2 * (2 ^ bitLen s - s) = 2 ^ bitLen s := by
        have : 2 ^ bitLen s = 2 * 2 ^ (bitLen s - 1) := by
          rw [← pow_succ']
          congr 1
          omega
        omega
      rw [h2s, Nat.mod_self]
    rw [hm0, bitLen_zero, termS, ell, if_pos hpow2]
  · -- s lies strictly between powers: remainder is 2*(2^b − s) itself
    have hslt : 2 ^ (bitLen s - 1) < s := lt_of_le_of_ne hlb (by
      intro hc; exact hpow2 hc.symm)
    have hmlt : 2 * (2 ^ bitLen s - s) < 2 ^ bitLen s := by
      have : 2 ^ bitLen s = 2 * 2 ^ (bitLen s - 1) := by
        rw [← pow_succ']
        congr 1
        omega
      omega
    rw [Nat.mod_eq_of_lt hmlt, bitLen_two_mul (by omega), termS, ell, if_neg hpow2]

/-- Terms appearing in the reindexed upper half of the build-phase sum. -/
def termG (k u : Nat) : Nat := ((k + 1 + u) % 2 + k + 1 - bitLen u) / 2

/-- Total work of the build phase of an order-`k` pebbler, as scheduled by
the formula `tS`: the sum of `tS k r` over rounds `r = 1 … 2^k − 1`. -/
def tSsum (k : Nat) : Nat := ∑ r ∈ Finset.Ico 1 (2 ^ k), tS k r

def termSsum (k : Nat) : Nat := ∑ s ∈ Finset.Ico 1 (2 ^ (k - 1) + 1), termS k s

def termGsum (k : Nat) : Nat := ∑ u ∈ Finset.Ico 1 (2 ^ (k - 1)), termG k u

theorem termS_step {k s : Nat} (hk : 1 ≤ k) (h1 : 1 ≤ s) (h2 : s ≤ 2 ^ (k - 1)) :
    termS (k + 1) s = termS k s + 1 - (k + s) % 2 := by
  have h2' : s ≤ 2 ^ ((k + 1) - 1) := by
    have : 2 ^ (k - 1) ≤ 2 ^ k := Nat.pow_le_pow_right (by omega) (by omega)
    simpa using le_trans h2 this
  by_cases hp : s = 2 ^ (bitLen s - 1)
  · have he : ell s = 0 := by rw [ell, if_pos hp]
    simp only [termS, he]
    omega
  · have hle := ell_le h1 h2 hp
    simp only [termS]
    omega

theorem termS_top {k : Nat} (hk : 1 ≤ k) : termS (k + 1) (2 ^ k) = k / 2 + 1 := by
  have he : ell (2 ^ k) = 0 := ell_two_pow k
  have hpar : (k + 1 + 2 ^ k) % 2 = (k + 1) % 2 := by
    have : 2 ^ k = 2 * 2 ^ (k - 1) := by
      rw [← pow_succ']
      congr 1
      omega
    omega
  simp only [termS, he, hpar]
  omega

theorem termS_emission {k u : Nat} (hk : 1 ≤ k) (h1 : 1 ≤ u) (h2 : u < 2 ^ (k - 1)) :
    termS (k + 1) (2 ^ k - u) = termG k u := by
  have hpow : 2 ^ k = 2 * 2 ^ (k - 1) := by
    rw [← pow_succ']
    congr 1
    omega
  set s := 2 ^ k - u with hs
  have hs1 : 2 ^ (k - 1) < s := by omega
  have hs2 : s < 2 ^ k := by omega
  have hbs : bitLen s = k := by
    have := bitLen_eq_succ (n := s) (b := k - 1) (by omega) (by
      have : (k - 1) + 1 = k := by omega
      rw [this]
      exact hs2)
    omega
  have hnp : s ≠ 2 ^ (bitLen s - 1) := by
    rw [hbs]
    omega
  have hell : ell s = bitLen u + 1 := by
    rw [ell, if_neg hnp, hbs]
    congr 2
    omega
  have hpar : (k + 1 + s) % 2 = (k + 1 + u) % 2 := by omega
  have hul : bitLen u ≤ k - 1 := bitLen_le_of_lt_two_pow h2
  simp only [termS, termG, hell, hpar]
  omega

theorem termG_step {k u : Nat} (hk : 1 ≤ k) (h1 : 1 ≤ u) (h2 : u < 2 ^ (k - 1)) :
    termG (k + 1) u = termG k u + (k + u) % 2 := by
  have hul : bitLen u ≤ k - 1 := bitLen_le_of_lt_two_pow h2
  simp only [termG]
  omega

theorem termG_top {k u : Nat} (hk : 1 ≤ k) (h1 : 2 ^ (k - 1) ≤ u) (h2 : u < 2 ^ k) :
    termG (k + 1) u = 1 := by
  have hb : bitLen u = k := by
    have := bitLen_eq_succ (n := u) (b := k - 1) h1 (by
      have : (k - 1) + 1 = k := by omega
      rw [this]
      exact h2)
    omega
  simp only [termG, hb]
  omega

theorem sum_parity_even (c m : Nat) :
    ∑ u ∈ Finset.Ico 1 (2 * m + 1), (c + u) % 2 = m := by
  induction m with
  | zero => simp
  | succ m ih =>
    have h1 : 2 * (m + 1) + 1 = (2 * m + 2) + 1 := by ring
    rw [h1, Finset.sum_Ico_succ_top (by omega), show 2 * m + 2 = (2 * m + 1) + 1 by ring,
      Finset.sum_Ico_succ_top (by omega), ih]
    omega

theorem sum_parity_odd (c m : Nat) :
    ∑ u ∈ Finset.Ico 1 (2 * m + 2), (c + u) % 2 = m + 1 - c % 2 := by
  rw [show 2 * m + 2 = (2 * m + 1) + 1 by ring, Finset.sum_Ico_succ_top (by omega),
    sum_parity_even]
  omega

theorem tSsum_eq_termSsum {k : Nat} (hk : 1 ≤ k) : tSsum k = termSsum k := by
  have hpow : 2 ^ k = 2 * 2 ^ (k - 1) := by
    rw [← pow_succ']
    congr 1
    omega
  have h1 : (1 : Nat) ≤ 2 ^ (k - 1) := Nat.one_le_two_pow
  rw [tSsum, ← Finset.sum_Ico_consecutive (tS k) (m := 1) (n := 2 ^ (k - 1)) (k := 2 ^ k)
    h1 (by omega)]
  have hzero : ∑ r ∈ Finset.Ico 1 (2 ^ (k - 1)), tS k r = 0 := by
    apply Finset.sum_eq_zero
    intro r hr
    rw [Finset.mem_Ico] at hr
    rw [tS, if_pos hr.2]
  rw [hzero, zero_add, termSsum]
  apply Finset.sum_nbij' (fun r => 2 ^ k - r) (fun s => 2 ^ k - s)
  · intro r hr
    rw [Finset.mem_Ico] at *
    omega
  · intro s hs
    rw [Finset.mem_Ico] at *
    omega
  · intro r hr
    rw [Finset.mem_Ico] at hr
    omega
  · intro s hs
    rw [Finset.mem_Ico] at hs
    omega
  · intro r hr
    rw [Finset.mem_Ico] at hr
    have hs1 : 1 ≤ 2 ^ k - r := by omega
    have hs2 : 2 ^ k - r ≤ 2 ^ (k - 1) := by omega
    have := tS_sform hk hs1 hs2
    have hrr : 2 ^ k - (2 ^ k - r) = r := by omega
    rw [hrr] at this
    exact this

theorem termSsum_step {k : Nat} (hk : 2 ≤ k) :
    termSsum (k + 1) = termSsum k + 2 ^ (k - 2) + (k / 2 + 1) + termGsum k := by
  have hpow1 : 2 ^ (k - 1) = 2 * 2 ^ (k - 2) := by
    rw [← pow_succ']
    congr 1
    omega
  have hpow2 : 2 ^ k = 2 * 2 ^ (k - 1) := by
    rw [← pow_succ']
    congr 1
    omega
  have hks : (k + 1) - 1 = k := by omega
  rw [termSsum, hks, ← Finset.sum_Ico_consecutive (termS (k + 1)) (m := 1)
    (n := 2 ^ (k - 1) + 1) (k := 2 ^ k + 1) (by omega) (by omega)]
  -- lower half: apply the step relation pointwise
  have hlow : ∑ s ∈ Finset.Ico 1 (2 ^ (k - 1) + 1), termS (k + 1) s
      = termSsum k + 2 ^ (k - 2) := by
    have hpt : ∀ s ∈ Finset.Ico 1 (2 ^ (k - 1) + 1),
        termS (k + 1) s = termS k s + (1 - (k + s) % 2) := by
      intro s hs
      rw [Finset.mem_Ico] at hs
      have := termS_step (by omega : 1 ≤ k) (by omega : 1 ≤ s) (by omega : s ≤ 2 ^ (k - 1))
      omega
    rw [Finset.sum_congr rfl hpt, Finset.sum_add_distrib]
    have hpar : ∑ s ∈ Finset.Ico 1 (2 ^ (k - 1) + 1), (1 - (k + s) % 2) = 2 ^ (k - 2) := by
      have hsum2 : ∑ s ∈ Finset.Ico 1 (2 ^ (k - 1) + 1), ((1 - (k + s) % 2) + (k + s) % 2)
          = 2 ^ (k - 1) := by
        have hone : ∀ s ∈ Finset.Ico 1 (2 ^ (k - 1) + 1),
            (1 - (k + s) % 2) + (k + s) % 2 = 1 := by
          intro s _
          omega
        rw [Finset.sum_congr rfl hone, Finset.sum_const, Nat.card_Ico, smul_eq_mul]
        omega
      rw [Finset.sum_add_distrib] at hsum2
      have hpe := sum_parity_even k (2 ^ (k - 2))
      rw [← hpow1] at hpe
      omega
    rw [hpar, termSsum]
  rw [hlow]
  -- upper half: reindex by u = 2^k − s, then split off u = 0
  have hup : ∑ s ∈ Finset.Ico (2 ^ (k - 1) + 1) (2 ^ k + 1), termS (k + 1) s
      = (k / 2 + 1) + termGsum k := by
    have hre : ∑ s ∈ Finset.Ico (2 ^ (k - 1) + 1) (2 ^ k + 1), termS (k + 1) s
        = ∑ u ∈ Finset.Ico 0 (2 ^ (k - 1)), termS (k + 1) (2 ^ k - u) := by
      apply Finset.sum_nbij' (fun s => 2 ^ k - s) (fun u => 2 ^ k - u)
      · intro s hs
        rw [Finset.mem_Ico] at *
        omega
      · intro u hu
        rw [Finset.mem_Ico] at *
        omega
      · intro s hs
        rw [Finset.mem_Ico] at hs
        omega
      · intro u hu
        rw [Finset.mem_Ico] at hu
        omega
      · intro s hs
        rw [Finset.mem_Ico] at hs
        have : 2 ^ k - (2 ^ k - s) = s := by omega
        rw [this]
    rw [hre, Finset.sum_eq_sum_Ico_succ_bot (by positivity)]
    have h0 : termS (k + 1) (2 ^ k - 0) = k / 2 + 1 := by
      rw [Nat.sub_zero]
      exact termS_top (by omega)
    rw [h0, Nat.zero_add]
    congr 1
    rw [termGsum]
    apply Finset.sum_congr rfl
    intro u hu
    rw [Finset.mem_Ico] at hu
    exact termS_emission (k := k) (by omega) hu.1 hu.2
  rw [hup]
  ring

theorem termGsum_step {k : Nat} (hk : 2 ≤ k) :
    termGsum (k + 1) = termGsum k + (2 ^ (k - 2) - k % 2) + 2 ^ (k - 1) := by
  have hpow1 : 2 ^ (k - 1) = 2 * 2 ^ (k - 2) := by
    rw [← pow_succ']
    congr 1
    omega
  have hpow2 : 2 ^ k = 2 * 2 ^ (k - 1) := by
    rw [← pow_succ']
    congr 1
    omega
  have hks : (k + 1) - 1 = k := by omega
  have h11 : (1 : Nat) ≤ 2 ^ (k - 1) := Nat.one_le_two_pow
  have h22 : (1 : Nat) ≤ 2 ^ (k - 2) := Nat.one_le_two_pow
  rw [termGsum, hks, ← Finset.sum_Ico_consecutive (termG (k + 1)) (m := 1)
    (n := 2 ^ (k - 1)) (k := 2 ^ k) (by omega) (by omega)]
  have hlow : ∑ u ∈ Finset.Ico 1 (2 ^ (k - 1)), termG (k + 1) u
      = termGsum k + (2 ^ (k - 2) - k % 2) := by
    have hpt : ∀ u ∈ Finset.Ico 1 (2 ^ (k - 1)),
        termG (k + 1) u = termG k u + (k + u) % 2 := by
      intro u hu
      rw [Finset.mem_Ico] at hu
      exact termG_step (k := k) (by omega) hu.1 hu.2
    rw [Finset.sum_congr rfl hpt, Finset.sum_add_distrib]
    have hpo := sum_parity_odd k (2 ^ (k - 2) - 1)
    have hrange : 2 * (2 ^ (k - 2) - 1) + 2 = 2 ^ (k - 1) := by omega
    rw [hrange] at hpo
    rw [hpo, termGsum]
    omega
  have hhigh : ∑ u ∈ Finset.Ico (2 ^ (k - 1)) (2 ^ k), termG (k + 1) u = 2 ^ (k - 1) := by
    have hpt : ∀ u ∈ Finset.Ico (2 ^ (k - 1)) (2 ^ k), termG (k + 1) u = 1 := by
      intro u hu
      rw [Finset.mem_Ico] at hu
      exact termG_top (k := k) (by omega) hu.1 hu.2
    rw [Finset.sum_congr rfl hpt, Finset.sum_const, Nat.card_Ico, smul_eq_mul]
    omega
  rw [hlow, hhigh]

theorem termGsum_closed {k : Nat} (hk : 2 ≤ k) : termGsum k + k / 2 + 1 = 3 * 2 ^ (k - 2) := by
  induction k, hk using Nat.le_induction with
  | base => decide
  | succ k hk2 ih =>
    rw [termGsum_step hk2]
    have hpow1 : 2 ^ (k - 1) = 2 * 2 ^ (k - 2) := by
      rw [← pow_succ']
      congr 1
      omega
    have hk1 : (k + 1) - 2 = k - 1 := by omega
    rw [hk1]
    omega

theorem termSsum_closed_ge_two {k : Nat} (hk : 2 ≤ k) : termSsum k + 1 = 2 ^ k := by
  induction k, hk using Nat.le_induction with
  | base => decide
  | succ k hk2 ih =>
    rw [termSsum_step hk2]
    have := termGsum_closed hk2
    have hpow1 : 2 ^ (k - 1) = 2 * 2 ^ (k - 2) := by
      rw [← pow_succ']
      congr 1
      omega
    have hpow2 : 2 ^ k = 2 * 2 ^ (k - 1) := by
      rw [← pow_succ']
      congr 1
      omega
    have hpow3 : 2 ^ (k + 1) = 2 * 2 ^ k := by
      rw [← pow_succ']
    omega

theorem termSsum_closed {k : Nat} (hk : 1 ≤ k) : termSsum k + 1 = 2 ^ k := by
  rcases Nat.lt_or_ge k 2 with hlt | hge
  · have : k = 1 := by omega
    subst this
    decide
  · exact termSsum_closed_ge_two hge

/-- The schedule formula distributes exactly the `2^k − 1` chain evaluations
of the build phase over its `2^k − 1` rounds. -/
theorem tSsum_closed (k : Nat) : tSsum k = 2 ^ k - 1 := by
  cases Nat.eq_zero_or_pos k with
  | inl h0 => subst h0; decide
  | inr hpos =>
    have := termSsum_closed hpos
    rw [tSsum_eq_termSsum hpos]
    omega

/-- State of the build loop of the pebbler: the slot list `y` (indices
`0 … k`, a slot holding `none` is Python's `None`), the index `i` of the slot
currently being advanced, and the remaining quota `g` for that slot. -/
structure PebSt (α : Type) where
  y : List (Option α)
  i : Nat
  g : Nat
  deriving Repr, DecidableEq

/-- One advance of the build loop, from the body of the inner `for` of `P`:
`z = y[i]; if g == 0: i -= 1; g = 2**i; y[i] = f(z); g -= 1`.  Applying `f`
is modelled on the option level; the schedule only ever reads populated
slots (proved below), matching Python, where `f(z)` presupposes `z` is an
actual value. -/
def advance {α : Type} (f : α → α) (s : PebSt α) : PebSt α :=
  let z := s.y.getD s.i none
  if s.g = 0 then
    ⟨s.y.set (s.i - 1) (z.map f), s.i - 1, 2 ^ (s.i - 1) - 1⟩
  else
    ⟨s.y.set s.i (z.map f), s.i, s.g - 1⟩

/-- Iterating `advance`, first advance first. -/
def advMany {α : Type} (f : α → α) : Nat → PebSt α → PebSt α
  | 0, s => s
  | t + 1, s => advMany f t (advance f s)

/-- Number of one-way-function evaluations in `t` advances from `s`: one per
advance whose read slot is populated (in a valid run: every one). -/
def advCount {α : Type} (f : α → α) : Nat → PebSt α → Nat
  | 0, _ => 0
  | t + 1, s =>
    (if (s.y.getD s.i none).isSome then 1 else 0) + advCount f t (advance f s)

/-- Initial state of `P k x`: `y = [None]*k + [x]`, `i = k`, `g = 0`. -/
def pebInit {α : Type} (k : Nat) (x : Option α) : PebSt α :=
  ⟨List.replicate k none ++ [x], k, 0⟩

/-- The build phase: `cnt` consecutive rounds starting at round `r`, each
performing `tS k r` advances and yielding `Pending` (`none`), paired with the
number of evaluations performed in that round.  Returns the final state and
the list of round outputs. -/
def buildFrom {α : Type} (f : α → α) (k : Nat) :
    Nat → Nat → PebSt α → PebSt α × List (Option α × Nat)
  | 0, _, s => (s, [])
  | cnt + 1, r, s =>
    let c := advCount f (tS k r) s
    let s' := advMany f (tS k r) s
    let rest := buildFrom f k cnt (r + 1) s'
    (rest.1, (none, c) :: rest.2)

/-- Python's `next(filter(None, v))` on a tuple of optional values: the first
non-`None` entry (and `none` if there is none, which never happens in a run
of the pebbler, as proved below). -/
def firstSome {α : Type} : List (Option α) → Option α
  | [] => none
  | none :: rest => firstSome rest
  | some v :: _ => some v

/-- The interleaving layer of the pebbler: given the (instrumented) output
lists of the sub-pebblers, `zip_longest` pads every column to the longest
list with `(None, no work)`, each column yields the first non-`None` value
among the sub-pebblers in ascending order of their orders, and the column's
work is the total work of the sub-pebblers in that column. -/
def zipCols {α : Type} (subs : List (List (Option α × Nat))) : List (Option α × Nat) :=
  (List.range ((subs.map List.length).foldr max 0)).map fun c =>
    (firstSome (subs.map fun L => (L.getD c (none, 0)).1),
     (subs.map fun L => (L.getD c (none, 0)).2).sum)

/-- The recursive pebbler `P`, instrumented: `PC f fuel k x` is the list of
the `2^(k+1) − 1` round outputs of `P(k, x)`, each paired with the number of
one-way-function evaluations performed in that round (including those of the
sub-pebblers it delegates to).  The recursion of the source on the strictly
smaller orders `0 … k−1` is fed through the `fuel` argument; any `fuel ≥ k`
computes the same list (`PC_fuel_congr` below). -/
def PC {α : Type} (f : α → α) : Nat → Nat → Option α → List (Option α × Nat)
  | _, 0, x => [(x, 0)]
  | 0, _ + 1, _ => []
  | fuel + 1, k + 1, x =>
    let bp := buildFrom f (k + 1) (2 ^ (k + 1) - 1) 1 (pebInit (k + 1) x)
    let subs := (List.range (k + 1)).map fun j => PC f fuel j (bp.1.y.getD (j + 1) none)
    bp.2 ++ [(bp.1.y.getD 0 none, 0)] ++ zipCols subs

/-- The round outputs of the pebbler `P(k, x)` of the source: `none` is a
`Pending` round, `some v` a revealed value. -/
def P {α : Type} (f : α → α) (k : Nat) (x : Option α) : List (Option α) :=
  (PC f k k x).map Prod.fst

/-- Per-round evaluation counts of the full traversal of `P(k, x)`. -/
def Pwork {α : Type} (f : α → α) (k : Nat) (x : Option α) : List Nat :=
  (PC f k k x).map Prod.snd

example : P Nat.succ 0 (some 7) = [some 7] := by decide
example : P Nat.succ 1 (some 0) = [none, some 1, some 0] := by decide
example : P Nat.succ 2 (some 0) =
    [none, none, none, some 3, some 2, some 1, some 0] := by decide
example : P Nat.succ 3 (some 0) =
    [none, none, none, none, none, none, none,
     some 7, some 6, some 5, some 4, some 3, some 2, some 1, some 0] := by decide
example : Pwork Nat.succ 2 (some 0) = [0, 1, 2, 0, 1, 0, 0] := by decide
example : Pwork Nat.succ 3 (some 0) = [0, 0, 0, 2, 1, 2, 2, 0, 1, 1, 2, 0, 1, 0, 0] := by
  decide

theorem getD_map_range {α : Type} (F : Nat → Option α) {m n : Nat} (h : m < n) :
    ((List.range n).map F).getD m none = F m := by
  rw [List.getD_eq_getElem?_getD, List.getElem?_map, List.getElem?_range h]
  rfl

theorem getD_map_range_ge {α : Type} (F : Nat → Option α) {m n : Nat} (h : n ≤ m) :
    ((List.range n).map F).getD m none = none := by
  rw [List.getD_eq_getElem?_getD, List.getElem?_eq_none]
  · rfl
  · simpa using h

theorem set_map_range {α : Type} (F : Nat → α) (v : α) {m n : Nat} (h : m < n) :
    ((List.range n).map F).set m v = (List.range n).map fun i => if i = m then v else F i := by
  apply List.ext_getElem?
  intro p
  rw [List.getElem?_set]
  by_cases hmp : m = p
  · subst hmp
    rw [if_pos rfl, if_pos (by simpa using h), List.getElem?_map, List.getElem?_range h]
    simp
  · rw [if_neg hmp, List.getElem?_map, List.getElem?_map]
    rcases Nat.lt_or_ge p n with hp | hp
    · rw [List.getElem?_range hp]
      have hne : p ≠ m := fun hc => hmp hc.symm
      simp [hne]
    · rw [List.getElem?_eq_none (by simpa using hp)]
      simp

theorem pebInit_y {α : Type} (k : Nat) (x : Option α) :
    (pebInit k x).y = (List.range (k + 1)).map fun m => if m = k then x else none := by
  apply List.ext_getElem?
  intro p
  show (List.replicate k (none : Option α) ++ [x])[p]? = _
  rw [List.getElem?_append, List.getElem?_map, List.length_replicate]
  rcases Nat.lt_trichotomy p k with hp | hp | hp
  · rw [if_pos hp, List.getElem?_replicate, if_pos hp, List.getElem?_range (by omega)]
    have hne : p ≠ k := by omega
    simp [hne]
  · subst hp
    rw [if_neg (by omega), Nat.sub_self, List.getElem?_range (by omega)]
    simp
  · have h1 : (List.range (k + 1))[p]? = none :=
      List.getElem?_eq_none (by simp only [List.length_range]; omega)
    have hx : [x][p - k]? = none :=
      List.getElem?_eq_none (by simp only [List.length_singleton]; omega)
    rw [if_neg (by omega), h1, hx]
    simp

theorem advMany_succ_right {α : Type} (f : α → α) :
    ∀ (t : Nat) (s : PebSt α), advMany f (t + 1) s = advance f (advMany f t s) := by
  intro t
  induction t with
  | zero => intro s; rfl
  | succ t ih =>
    intro s
    show advMany f (t + 1) (advance f s) = _
    rw [ih (advance f s)]
    rfl

theorem advMany_advance_comm {α : Type} (f : α → α) (b : Nat) (s : PebSt α) :
    advMany f b (advance f s) = advance f (advMany f b s) :=
  calc advMany f b (advance f s) = advMany f (b + 1) s := rfl
    _ = advance f (advMany f b s) := advMany_succ_right f b s

theorem advMany_add {α : Type} (f : α → α) (a b : Nat) (s : PebSt α) :
    advMany f (a + b) s = advMany f b (advMany f a s) := by
  induction a generalizing s with
  | zero => rw [Nat.zero_add]; rfl
  | succ a ih =>
    calc advMany f (a + 1 + b) s
        = advMany f (a + b + 1) s := by rw [show a + 1 + b = a + b + 1 by omega]
      _ = advance f (advMany f (a + b) s) := advMany_succ_right f (a + b) s
      _ = advance f (advMany f b (advMany f a s)) := by rw [ih]
      _ = advMany f b (advance f (advMany f a s)) := (advMany_advance_comm f b _).symm
      _ = advMany f b (advMany f (a + 1) s) := by rw [advMany_succ_right]

/-- Slot contents while slot `j` is being filled, after `T` advances in total:
slots above `j` are finished (slot `m` holds `f^(2^k − 2^m)(x)`, slot `k` the
seed), slot `j` holds `f^T(x)`, slots below `j` are still empty. -/
def stageY {α : Type} (f : α → α) (k : Nat) (x : α) (j T : Nat) : List (Option α) :=
  (List.range (k + 1)).map fun m =>
    if m < j then none
    else if m = j then some (f^[T] x)
    else if m = k then some x
    else some (f^[2 ^ k - 2 ^ m] x)

theorem advance_g_zero {α : Type} (f : α → α) {s : PebSt α} (h : s.g = 0) :
    advance f s =
      ⟨s.y.set (s.i - 1) ((s.y.getD s.i none).map f), s.i - 1, 2 ^ (s.i - 1) - 1⟩ := by
  rw [advance]
  simp only [h, if_pos]

theorem advance_g_pos {α : Type} (f : α → α) {s : PebSt α} (h : s.g ≠ 0) :
    advance f s = ⟨s.y.set s.i ((s.y.getD s.i none).map f), s.i, s.g - 1⟩ := by
  rw [advance]
  simp only [h, if_neg, if_false]

/-- Build-phase invariant: after `T` advances from the initial state of an
order-`k` pebbler (for `1 ≤ T ≤ 2^k − 1`), the cursor sits on slot
`j = bitLen (2^k − T) − 1` with `2^k − 2^j − T` advances left for it, and the
slot list is `stageY`: slot `k` still holds the seed, slots `k−1 … j+1` their
finished values `f^(2^k − 2^m)(x)`, slot `j` the value `f^T(x)`. -/
theorem advMany_stage {α : Type} (f : α → α) {k : Nat} (x : α) (hk : 1 ≤ k) :
    ∀ T, 1 ≤ T → T ≤ 2 ^ k - 1 →
      advMany f T (pebInit k (some x)) =
        ⟨stageY f k x (bitLen (2 ^ k - T) - 1) T,
         bitLen (2 ^ k - T) - 1,
         2 ^ k - 2 ^ (bitLen (2 ^ k - T) - 1) - T⟩ := by
  have hpowk : 2 ^ k = 2 * 2 ^ (k - 1) := by
    rw [← pow_succ']
    congr 1
    omega
  have h2k : (1 : Nat) ≤ 2 ^ (k - 1) := Nat.one_le_two_pow
  intro T hT1
  induction T, hT1 using Nat.le_induction with
  | base =>
    intro hT2
    have hbl : bitLen (2 ^ k - 1) = k := by
      have := bitLen_eq_succ (n := 2 ^ k - 1) (b := k - 1) (by omega) (by
        have : (k - 1) + 1 = k := by omega
        rw [this]
        omega)
      omega
    rw [hbl]
    have hstep : advMany f 1 (pebInit k (some x)) = advance f (pebInit k (some x)) := rfl
    have hg0 : (pebInit k (some x)).g = 0 := rfl
    rw [hstep, advance_g_zero f hg0]
    have hi : (pebInit k (some x)).i = k := rfl
    have hget : (pebInit k (some x)).y.getD k none = some x := by
      rw [pebInit_y, getD_map_range _ (show k < k + 1 by omega)]
      simp
    rw [hi, hget, pebInit_y, set_map_range _ _ (by omega : k - 1 < k + 1)]
    have hmap : ((List.range (k + 1)).map fun i =>
        if i = k - 1 then (some x).map f else if i = k then some x else none)
        = stageY f k x (k - 1) 1 := by
      rw [stageY]
      apply List.map_congr_left
      intro m hm
      rw [List.mem_range] at hm
      rcases Nat.lt_trichotomy m (k - 1) with hc | hc | hc
      · rw [if_neg (by omega), if_pos hc]
        rw [if_neg (by omega)]
      · subst hc
        rw [if_pos rfl, if_neg (by omega), if_pos rfl]
        simp
      · have hmk : m = k := by omega
        subst hmk
        rw [if_neg (by omega), if_pos rfl, if_neg (by omega), if_neg (by omega), if_pos rfl]
    rw [hmap]
    congr 1
    omega
  | succ T hT1 ih =>
    intro hT2
    have hIH := ih (by omega)
    set j := bitLen (2 ^ k - T) - 1 with hj
    have hne : 2 ^ k - T ≠ 0 := by omega
    have hblpos : 1 ≤ bitLen (2 ^ k - T) := bitLen_pos hne
    have hbl : bitLen (2 ^ k - T) = j + 1 := by omega
    have hlow : 2 ^ j ≤ 2 ^ k - T := by
      have := two_pow_pred_le_of_bitLen (2 ^ k - T) hne
      rw [hbl] at this
      simpa using this
    have hhigh : 2 ^ k - T < 2 ^ (j + 1) := by
      have := bitLen_lt_two_pow (2 ^ k - T)
      rw [hbl] at this
      exact this
    have hjk : j + 1 ≤ k := by
      have : bitLen (2 ^ k - T) ≤ k := bitLen_le_of_lt_two_pow (by omega)
      omega
    have hpj1 : 2 ^ (j + 1) = 2 * 2 ^ j := by rw [← pow_succ']
    have hstep : advMany f (T + 1) (pebInit k (some x))
        = advance f (advMany f T (pebInit k (some x))) := advMany_succ_right f T _
    rw [hstep, hIH]
    by_cases hg : 2 ^ k - 2 ^ j - T = 0
    · -- the quota for slot j is exhausted: the cursor moves to slot j − 1
      have hTval : T = 2 ^ k - 2 ^ j := by omega
      have hj1 : 1 ≤ j := by
        by_contra hcon
        have hj0 : j = 0 := by omega
        rw [hj0, pow_zero] at hTval
        omega
      have hpj : 2 ^ j = 2 * 2 ^ (j - 1) := by
        rw [← pow_succ']
        congr 1
        omega
      have h1j : (1 : Nat) ≤ 2 ^ (j - 1) := Nat.one_le_two_pow
      have hbl' : bitLen (2 ^ k - (T + 1)) = j := by
        have heq : 2 ^ k - (T + 1) = 2 ^ j - 1 := by omega
        rw [heq]
        have := bitLen_eq_succ (n := 2 ^ j - 1) (b := j - 1) (by omega) (by
          have : (j - 1) + 1 = j := by omega
          rw [this]
          omega)
        omega
      rw [advance_g_zero f (by exact hg)]
      dsimp only
      rw [hbl']
      have hgetj : (stageY f k x j T).getD j none = some (f^[T] x) := by
        rw [stageY, getD_map_range _ (show j < k + 1 by omega)]
        rw [if_neg (by omega), if_pos rfl]
      rw [hgetj, stageY, set_map_range _ _ (by omega : j - 1 < k + 1)]
      have hmap : ((List.range (k + 1)).map fun m =>
          if m = j - 1 then (some (f^[T] x)).map f
          else if m < j then none
          else if m = j then some (f^[T] x)
          else if m = k then some x
          else some (f^[2 ^ k - 2 ^ m] x))
          = stageY f k x (j - 1) (T + 1) := by
        rw [stageY]
        apply List.map_congr_left
        intro m hm
        rw [List.mem_range] at hm
        simp only [Option.map_some']
        rcases Nat.lt_trichotomy m j with hc | hc | hc
        · rcases Nat.lt_trichotomy m (j - 1) with hd | hd | hd
          · simp only [if_neg (show ¬ m = j - 1 by omega), if_pos hc, if_pos hd]
          · simp only [if_neg (show ¬ m < j - 1 by omega), if_pos hd,
              Function.iterate_succ_apply']
          · omega
        · simp only [if_neg (show ¬ m = j - 1 by omega), if_neg (show ¬ m < j by omega),
            if_neg (show ¬ m < j - 1 by omega), if_neg (show ¬ m = k by omega), if_pos hc]
          rw [hc]
          exact congrArg (fun t => some (f^[t] x)) (by omega)
        · simp only [if_neg (show ¬ m = j - 1 by omega), if_neg (show ¬ m < j by omega),
            if_neg (show ¬ m = j by omega), if_neg (show ¬ m < j - 1 by omega)]
      rw [hmap]
      congr 1
      omega
    · -- still inside the quota of slot j: the cursor stays
      have hbl' : bitLen (2 ^ k - (T + 1)) = j + 1 := by
        apply bitLen_eq_succ
        · omega
        · omega
      rw [advance_g_pos f (by exact hg)]
      dsimp only
      rw [hbl']
      have hgetj : (stageY f k x j T).getD j none = some (f^[T] x) := by
        rw [stageY, getD_map_range _ (show j < k + 1 by omega)]
        rw [if_neg (by omega), if_pos rfl]
      rw [hgetj, stageY, set_map_range _ _ (by omega : j < k + 1)]
      have hmap : ((List.range (k + 1)).map fun m =>
          if m = j then (some (f^[T] x)).map f
          else if m < j then none
          else if m = j then some (f^[T] x)
          else if m = k then some x
          else some (f^[2 ^ k - 2 ^ m] x))
          = stageY f k x j (T + 1) := by
        rw [stageY]
        apply List.map_congr_left
        intro m hm
        rw [List.mem_range] at hm
        simp only [Option.map_some']
        rcases Nat.lt_trichotomy m j with hc | hc | hc
        · simp only [if_neg (show ¬ m = j by omega), if_pos hc]
        · simp only [if_neg (show ¬ m < j by omega), if_pos hc,
            Function.iterate_succ_apply']
        · simp only [if_neg (show ¬ m = j by omega), if_neg (show ¬ m < j by omega)]
      rw [hmap]
      simp only [Nat.add_sub_cancel]
      congr 1 <;> omega

theorem stageY_getD_self {α : Type} (f : α → α) {k j : Nat} (x : α) (T : Nat)
    (h : j ≤ k) : (stageY f k x j T).getD j none = some (f^[T] x) := by
  rw [stageY, getD_map_range _ (show j < k + 1 by omega)]
  rw [if_neg (by omega), if_pos rfl]

/-- After the full build phase (`2^k − 1` advances), the cursor rests on slot
`0` with no quota left, and the slots hold the `stageY f k x 0 (2^k − 1)`
values. -/
theorem advMany_build_final {α : Type} (f : α → α) {k : Nat} (x : α) (hk : 1 ≤ k) :
    advMany f (2 ^ k - 1) (pebInit k (some x)) =
      ⟨stageY f k x 0 (2 ^ k - 1), 0, 0⟩ := by
  have h2k : (2 : Nat) ≤ 2 ^ k := by
    calc (2 : Nat) = 2 ^ 1 := by norm_num
      _ ≤ 2 ^ k := Nat.pow_le_pow_right (by omega) hk
  have h := advMany_stage f x hk (2 ^ k - 1) (by omega) (le_refl _)
  have hsub : 2 ^ k - (2 ^ k - 1) = 1 := by omega
  rw [hsub] at h
  have hbl : bitLen 1 = 1 := by decide
  rw [hbl] at h
  simpa using h

theorem advMany_read_isSome {α : Type} (f : α → α) {k T : Nat} (x : α) (hk : 1 ≤ k)
    (hT : T ≤ 2 ^ k - 1) :
    ((advMany f T (pebInit k (some x))).y.getD (advMany f T (pebInit k (some x))).i
      none).isSome = true := by
  cases Nat.eq_zero_or_pos T with
  | inl h0 =>
    subst h0
    show ((pebInit k (some x)).y.getD (pebInit k (some x)).i none).isSome = true
    have hi : (pebInit k (some x)).i = k := rfl
    have hget : (pebInit k (some x)).y.getD k none = some x := by
      rw [pebInit_y, getD_map_range _ (show k < k + 1 by omega)]
      simp
    rw [hi, hget]
    rfl
  | inr hpos =>
    rw [advMany_stage f x hk T hpos hT]
    have hjk : bitLen (2 ^ k - T) - 1 ≤ k := by
      have : bitLen (2 ^ k - T) ≤ k := bitLen_le_of_lt_two_pow (by omega)
      omega
    rw [stageY_getD_self f x T hjk]
    rfl

theorem advCount_traj {α : Type} (f : α → α) {k : Nat} (x : α) (hk : 1 ≤ k) :
    ∀ t T, T + t ≤ 2 ^ k - 1 →
      advCount f t (advMany f T (pebInit k (some x))) = t := by
  intro t
  induction t with
  | zero => intro T _; rfl
  | succ t ih =>
    intro T hTt
    show (if ((advMany f T (pebInit k (some x))).y.getD
        (advMany f T (pebInit k (some x))).i none).isSome then 1 else 0)
      + advCount f t (advance f (advMany f T (pebInit k (some x)))) = t + 1
    rw [advMany_read_isSome f x hk (by omega), if_pos rfl, ← advMany_succ_right,
      ih (T + 1) (by omega)]
    omega

theorem buildFrom_fst {α : Type} (f : α → α) (k : Nat) :
    ∀ (cnt r : Nat) (s : PebSt α),
      (buildFrom f k cnt r s).1
        = advMany f (∑ q ∈ Finset.range cnt, tS k (r + q)) s := by
  intro cnt
  induction cnt with
  | zero => intro r s; rfl
  | succ cnt ih =>
    intro r s
    show (buildFrom f k cnt (r + 1) (advMany f (tS k r) s)).1 = _
    rw [ih (r + 1) (advMany f (tS k r) s), ← advMany_add]
    congr 1
    rw [Finset.sum_range_succ']
    simp only [Nat.add_zero]
    have hpt : ∀ q, r + (q + 1) = r + 1 + q := by intro q; omega
    rw [Nat.add_comm]
    congr 1
    apply Finset.sum_congr rfl
    intro q _
    rw [hpt q]

theorem buildFrom_snd {α : Type} (f : α → α) (k : Nat) :
    ∀ (cnt r : Nat) (s : PebSt α),
      (buildFrom f k cnt r s).2
        = (List.range cnt).map fun q =>
            ((none : Option α),
             advCount f (tS k (r + q)) (advMany f (∑ p ∈ Finset.range q, tS k (r + p)) s)) := by
  intro cnt
  induction cnt with
  | zero => intro r s; rfl
  | succ cnt ih =>
    intro r s
    show ((none : Option α), advCount f (tS k r) s)
        :: (buildFrom f k cnt (r + 1) (advMany f (tS k r) s)).2 = _
    rw [ih (r + 1) (advMany f (tS k r) s), List.range_succ_eq_map]
    rw [List.map_cons, List.map_map]
    refine congrArg₂ List.cons ?_ ?_
    · simp [advMany]
    · apply List.map_congr_left
      intro q hq
      simp only [Function.comp_apply]
      have e1 : r + Nat.succ q = r + 1 + q := by omega
      have e2 : advMany f (∑ p ∈ Finset.range q, tS k (r + 1 + p)) (advMany f (tS k r) s)
          = advMany f (∑ p ∈ Finset.range (Nat.succ q), tS k (r + p)) s := by
        rw [← advMany_add]
        congr 1
        rw [Finset.sum_range_succ']
        have hcongr : (∑ p ∈ Finset.range q, tS k (r + (p + 1)))
            = ∑ p ∈ Finset.range q, tS k (r + 1 + p) := by
          apply Finset.sum_congr rfl
          intro p _
          congr 1
          omega
        rw [hcongr, show r + 0 = r from rfl, Nat.add_comm]
      rw [e1, e2]

/-- Unfolding equation of `PC` at a positive order. -/
theorem PC_succ {α : Type} (f : α → α) (fuel k : Nat) (x : Option α) :
    PC f (fuel + 1) (k + 1) x =
      (buildFrom f (k + 1) (2 ^ (k + 1) - 1) 1 (pebInit (k + 1) x)).2
      ++ [((buildFrom f (k + 1) (2 ^ (k + 1) - 1) 1 (pebInit (k + 1) x)).1.y.getD 0 none, 0)]
      ++ zipCols ((List.range (k + 1)).map fun j =>
          PC f fuel j
            ((buildFrom f (k + 1) (2 ^ (k + 1) - 1) 1 (pebInit (k + 1) x)).1.y.getD
              (j + 1) none)) := rfl

/-- The fuel argument of `PC` is irrelevant as soon as it dominates the
order. -/
theorem PC_fuel_congr {α : Type} (f : α → α) :
    ∀ fuel fuel' k (x : Option α), k ≤ fuel → k ≤ fuel' →
      PC f fuel k x = PC f fuel' k x := by
  intro fuel
  induction fuel with
  | zero =>
    intro fuel' k x h h'
    have hk : k = 0 := by omega
    subst hk
    cases fuel' <;> rfl
  | succ fl ih =>
    intro fuel' k x h h'
    cases k with
    | zero => cases fuel' <;> rfl
    | succ K =>
      match fuel', h' with
      | fl' + 1, h' =>
        rw [PC_succ, PC_succ]
        congr 1
        congr 1
        apply List.map_congr_left
        intro j hj
        rw [List.mem_range] at hj
        exact ih (fl') j _ (by omega) (by omega)

/-- The per-round work of the full traversal, as a pure function of the order
and the (1-based) round number: build rounds follow the schedule formula,
the first emission round does no work, and a later emission round adds up
the work of the sub-pebblers still running in its column.  This is the
specification against which the instrumented counts of `PC` are proved. -/
def W : Nat → Nat → Nat → Nat
  | _, 0, _ => 0
  | 0, _ + 1, _ => 0
  | fuel + 1, k + 1, r =>
    if r ≤ 2 ^ (k + 1) - 1 then tS (k + 1) r
    else if r = 2 ^ (k + 1) then 0
    else ((List.range (k + 1)).map fun j =>
      if r - 2 ^ (k + 1) ≤ 2 ^ (j + 1) - 1 then W fuel j (r - 2 ^ (k + 1)) else 0).sum

theorem W_succ (fuel k r : Nat) :
    W (fuel + 1) (k + 1) r =
      if r ≤ 2 ^ (k + 1) - 1 then tS (k + 1) r
      else if r = 2 ^ (k + 1) then 0
      else ((List.range (k + 1)).map fun j =>
        if r - 2 ^ (k + 1) ≤ 2 ^ (j + 1) - 1 then W fuel j (r - 2 ^ (k + 1)) else 0).sum := rfl

theorem W_fuel_congr :
    ∀ fuel fuel' k r, k ≤ fuel → k ≤ fuel' → W fuel k r = W fuel' k r := by
  intro fuel
  induction fuel with
  | zero =>
    intro fuel' k r h h'
    have hk : k = 0 := by omega
    subst hk
    cases fuel' <;> rfl
  | succ fl ih =>
    intro fuel' k r h h'
    cases k with
    | zero => cases fuel' <;> rfl
    | succ K =>
      match fuel', h' with
      | fl' + 1, h' =>
        rw [W_succ, W_succ]
        congr 2
        congr 1
        apply List.map_congr_left
        intro j hj
        rw [List.mem_range] at hj
        by_cases hc : r - 2 ^ (K + 1) ≤ 2 ^ (j + 1) - 1
        · rw [if_pos hc, if_pos hc, ih fl' j _ (by omega) (by omega)]
        · rw [if_neg hc, if_neg hc]

theorem getDd_map_range {β : Type} (F : Nat → β) (d : β) {m n : Nat} (h : m < n) :
    ((List.range n).map F).getD m d = F m := by
  rw [List.getD_eq_getElem?_getD, List.getElem?_map, List.getElem?_range h]
  rfl

theorem getDd_map_range_ge {β : Type} (F : Nat → β) (d : β) {m n : Nat} (h : n ≤ m) :
    ((List.range n).map F).getD m d = d := by
  rw [List.getD_eq_getElem?_getD, List.getElem?_eq_none]
  · rfl
  · simpa using h

theorem firstSome_map_range {β : Type} :
    ∀ (n : Nat) (F : Nat → Option β) (j0 : Nat) (v : β), j0 < n → F j0 = some v →
      (∀ m, m < j0 → F m = none) → firstSome ((List.range n).map F) = some v := by
  intro n
  induction n with
  | zero => intro F j0 v h; omega
  | succ n ih =>
    intro F j0 v hj0 hv hnone
    rw [List.range_succ_eq_map, List.map_cons, List.map_map]
    cases j0 with
    | zero =>
      rw [hv]
      rfl
    | succ j =>
      rw [hnone 0 (by omega)]
      show firstSome ((List.range n).map (F ∘ Nat.succ)) = some v
      exact ih (F ∘ Nat.succ) j v (by omega) hv (fun m hm => hnone (m + 1) (by omega))

theorem foldr_max_pow :
    ∀ (m c : Nat), ((List.range m).map fun j => 2 ^ (j + 1 + c) - 1).foldr max 0
      = if m = 0 then 0 else 2 ^ (m + c) - 1 := by
  intro m
  induction m with
  | zero => intro c; rfl
  | succ m ih =>
    intro c
    rw [List.range_succ_eq_map, List.map_cons, List.map_map, List.foldr_cons]
    have hsh : ((List.range m).map ((fun j => 2 ^ (j + 1 + c) - 1) ∘ Nat.succ)).foldr max 0
        = if m = 0 then 0 else 2 ^ (m + (c + 1)) - 1 := by
      rw [← ih (c + 1)]
      congr 1
      apply List.map_congr_left
      intro j _
      simp only [Function.comp_apply]
      congr 2
      omega
    rw [hsh]
    simp only [Nat.succ_ne_zero, if_false]
    by_cases hm : m = 0
    · subst hm
      rw [if_pos rfl]
      simp
    · rw [if_neg hm]
      have h1 : 2 ^ (0 + 1 + c) ≤ 2 ^ (m + (c + 1)) := by
        apply Nat.pow_le_pow_right (by omega)
        omega
      have h2 : (1 : Nat) ≤ 2 ^ (0 + 1 + c) := Nat.one_le_two_pow
      have he : m + 1 + c = m + (c + 1) := by omega
      rw [he]
      omega

/-- Full characterisation of the instrumented pebbler on a populated seed.
`P(k, x)` produces `2^k − 1` `Pending` rounds and then the chain values
`x_{n-1}, …, x_0` in strictly descending order, and the work of round `p + 1`
is the pure schedule function `W k k (p + 1)`. -/
theorem PC_spec {α : Type} (f : α → α) :
    ∀ (k : Nat) (x : α),
      PC f k k (some x) =
        (List.range (2 ^ (k + 1) - 1)).map fun p =>
          (if p < 2 ^ k - 1 then none else some (f^[2 ^ (k + 1) - 2 - p] x),
           W k k (p + 1)) := by
  intro k
  induction k using Nat.strong_induction_on with
  | _ k ih =>
    cases k with
    | zero =>
      intro x
      show [(some x, 0)] = _
      norm_num
      rw [List.range_succ]
      simp [W]
    | succ K =>
      intro x
      have hK1 : 1 ≤ K + 1 := by omega
      have hn2 : (2 : Nat) ≤ 2 ^ (K + 1) := by
        calc (2 : Nat) = 2 ^ 1 := by norm_num
          _ ≤ 2 ^ (K + 1) := Nat.pow_le_pow_right (by omega) (by omega)
      have hnn : 2 ^ (K + 1 + 1) = 2 * 2 ^ (K + 1) := by
        rw [pow_succ, Nat.mul_comm]
      -- the final state of the build phase
      have hsum : (∑ q ∈ Finset.range (2 ^ (K + 1) - 1), tS (K + 1) (1 + q))
          = 2 ^ (K + 1) - 1 := by
        have h := tSsum_closed (K + 1)
        rw [tSsum, Finset.sum_Ico_eq_sum_range] at h
        simpa using h
      have hbp1 : (buildFrom f (K + 1) (2 ^ (K + 1) - 1) 1 (pebInit (K + 1) (some x))).1
          = ⟨stageY f (K + 1) x 0 (2 ^ (K + 1) - 1), 0, 0⟩ := by
        rw [buildFrom_fst, hsum]
        exact advMany_build_final f x hK1
      have hslot : ∀ m, 1 ≤ m → m ≤ K + 1 →
          (stageY f (K + 1) x 0 (2 ^ (K + 1) - 1)).getD m none
            = some (f^[2 ^ (K + 1) - 2 ^ m] x) := by
        intro m h1 h2
        rw [stageY, getD_map_range _ (show m < K + 1 + 1 by omega)]
        rw [if_neg (by omega), if_neg (by omega)]
        by_cases hm : m = K + 1
        · rw [if_pos hm, hm, Nat.sub_self]
          simp
        · rw [if_neg hm]
      have hy0 : (stageY f (K + 1) x 0 (2 ^ (K + 1) - 1)).getD 0 none
          = some (f^[2 ^ (K + 1) - 1] x) :=
        stageY_getD_self f x _ (by omega)
      -- the build-phase round outputs: Pending, with exactly the scheduled work
      have hbp2 : (buildFrom f (K + 1) (2 ^ (K + 1) - 1) 1 (pebInit (K + 1) (some x))).2
          = (List.range (2 ^ (K + 1) - 1)).map
              fun q => ((none : Option α), tS (K + 1) (1 + q)) := by
        rw [buildFrom_snd]
        apply List.map_congr_left
        intro q hq
        rw [List.mem_range] at hq
        have hcnt : advCount f (tS (K + 1) (1 + q))
            (advMany f (∑ p ∈ Finset.range q, tS (K + 1) (1 + p))
              (pebInit (K + 1) (some x))) = tS (K + 1) (1 + q) := by
          apply advCount_traj f x hK1
          have hmono : (∑ p ∈ Finset.range (q + 1), tS (K + 1) (1 + p))
              ≤ ∑ p ∈ Finset.range (2 ^ (K + 1) - 1), tS (K + 1) (1 + p) := by
            apply Finset.sum_le_sum_of_subset
            apply Finset.range_subset.mpr
            omega
          rw [Finset.sum_range_succ, hsum] at hmono
          omega
        rw [hcnt]
      -- seeds and spec of the sub-pebblers
      have hseed : ∀ j, j < K + 1 →
          (buildFrom f (K + 1) (2 ^ (K + 1) - 1) 1
            (pebInit (K + 1) (some x))).1.y.getD (j + 1) none
            = some (f^[2 ^ (K + 1) - 2 ^ (j + 1)] x) := by
        intro j hj
        rw [hbp1]
        exact hslot (j + 1) (by omega) (by omega)
      have hsubs : ((List.range (K + 1)).map fun j =>
          PC f K j ((buildFrom f (K + 1) (2 ^ (K + 1) - 1) 1
            (pebInit (K + 1) (some x))).1.y.getD (j + 1) none))
          = (List.range (K + 1)).map fun j =>
              (List.range (2 ^ (j + 1) - 1)).map fun q =>
                (if q < 2 ^ j - 1 then none
                 else some (f^[2 ^ (K + 1) - 2 - q] x), W j j (q + 1)) := by
        apply List.map_congr_left
        intro j hj
        rw [List.mem_range] at hj
        rw [hseed j hj, PC_fuel_congr f K j j _ (by omega) (le_refl j), ih j (by omega)]
        apply List.map_congr_left
        intro q hq
        rw [List.mem_range] at hq
        have h2j : (2 : Nat) ≤ 2 ^ (j + 1) := by
          calc (2 : Nat) = 2 ^ 1 := by norm_num
            _ ≤ 2 ^ (j + 1) := Nat.pow_le_pow_right (by omega) (by omega)
        by_cases hcase : q < 2 ^ j - 1
        · rw [if_pos hcase, if_pos hcase]
        · rw [if_neg hcase, if_neg hcase]
          refine congrArg₂ Prod.mk ?_ rfl
          rw [← Function.iterate_add_apply]
          have hple : 2 ^ (j + 1) ≤ 2 ^ (K + 1) := Nat.pow_le_pow_right (by omega) (by omega)
          exact congrArg (fun t => some (f^[t] x)) (by omega)
      rw [PC_succ, hsubs, hbp2, hbp1]
      have hmid : ((⟨stageY f (K + 1) x 0 (2 ^ (K + 1) - 1), 0, 0⟩ : PebSt α).y.getD 0 none,
          (0 : Nat)) = (some (f^[2 ^ (K + 1) - 1] x), (0 : Nat)) := by
        show ((stageY f (K + 1) x 0 (2 ^ (K + 1) - 1)).getD 0 none, (0 : Nat)) = _
        rw [hy0]
      rw [hmid]
      -- the interleaving columns
      have hzip : zipCols ((List.range (K + 1)).map fun j =>
            (List.range (2 ^ (j + 1) - 1)).map fun q =>
              (if q < 2 ^ j - 1 then none
               else some (f^[2 ^ (K + 1) - 2 - q] x), W j j (q + 1)))
          = (List.range (2 ^ (K + 1) - 1)).map fun c =>
              (some (f^[2 ^ (K + 1) - 2 - c] x),
               W (K + 1) (K + 1) (2 ^ (K + 1) + c + 1)) := by
        rw [zipCols, List.map_map]
        have hfun : (List.length ∘ fun j =>
            (List.range (2 ^ (j + 1) - 1)).map fun q =>
              (if q < 2 ^ j - 1 then none
               else some (f^[2 ^ (K + 1) - 2 - q] x), W j j (q + 1)))
            = fun j => 2 ^ (j + 1 + 0) - 1 := by
          funext j
          simp
        rw [hfun, foldr_max_pow]
        simp only [Nat.succ_ne_zero, if_false, Nat.add_zero]
        apply List.map_congr_left
        intro c hc
        rw [List.mem_range] at hc
        refine congrArg₂ Prod.mk ?_ ?_
        · -- the value of the column: the unique ready sub-pebbler yields it
          rw [List.map_map]
          have hfst : ((fun L => (L.getD c ((none : Option α), (0 : Nat))).1) ∘ fun j =>
              (List.range (2 ^ (j + 1) - 1)).map fun q =>
                (if q < 2 ^ j - 1 then none
                 else some (f^[2 ^ (K + 1) - 2 - q] x), W j j (q + 1)))
              = fun j => if c < 2 ^ (j + 1) - 1 then
                  (if c < 2 ^ j - 1 then none else some (f^[2 ^ (K + 1) - 2 - c] x))
                else none := by
            funext j
            simp only [Function.comp_apply]
            by_cases hcj : c < 2 ^ (j + 1) - 1
            · rw [getDd_map_range _ _ (by simpa using hcj), if_pos hcj]
            · rw [getDd_map_range_ge _ _ (by simpa using (not_lt.mp hcj)), if_neg hcj]
          rw [hfst]
          have hc0 : c + 1 ≠ 0 := by omega
          have hblp : 1 ≤ bitLen (c + 1) := bitLen_pos hc0
          have hcl : 2 ^ (bitLen (c + 1) - 1) ≤ c + 1 := two_pow_pred_le_of_bitLen _ hc0
          have hch : c + 1 < 2 ^ bitLen (c + 1) := bitLen_lt_two_pow _
          have hjlt : bitLen (c + 1) - 1 < K + 1 := by
            have : bitLen (c + 1) ≤ K + 1 := bitLen_le_of_lt_two_pow (by omega)
            omega
          have hpb : 2 ^ bitLen (c + 1) = 2 * 2 ^ (bitLen (c + 1) - 1) := by
            have hsucc : bitLen (c + 1) - 1 + 1 = bitLen (c + 1) := by omega
            calc 2 ^ bitLen (c + 1) = 2 ^ (bitLen (c + 1) - 1 + 1) := by rw [hsucc]
              _ = 2 * 2 ^ (bitLen (c + 1) - 1) := by rw [pow_succ']
          apply firstSome_map_range (K + 1) _ (bitLen (c + 1) - 1)
              (f^[2 ^ (K + 1) - 2 - c] x) hjlt
          · have hsucc : bitLen (c + 1) - 1 + 1 = bitLen (c + 1) := by omega
            rw [if_pos (by rw [hsucc]; omega), if_neg (by omega)]
          · intro m hm
            have hmono : 2 ^ (m + 1) ≤ 2 ^ (bitLen (c + 1) - 1) :=
              Nat.pow_le_pow_right (by omega) (by omega)
            rw [if_neg (by omega)]
        · -- the work of the column: sum over the active sub-pebblers
          rw [List.map_map, W_succ]
          rw [if_neg (by omega), if_neg (by omega)]
          have harg : 2 ^ (K + 1) + c + 1 - 2 ^ (K + 1) = c + 1 := by omega
          rw [harg]
          have hsnd : ((fun L => (L.getD c ((none : Option α), (0 : Nat))).2) ∘ fun j =>
              (List.range (2 ^ (j + 1) - 1)).map fun q =>
                (if q < 2 ^ j - 1 then none
                 else some (f^[2 ^ (K + 1) - 2 - q] x), W j j (q + 1)))
              = fun j => if c < 2 ^ (j + 1) - 1 then W j j (c + 1) else 0 := by
            funext j
            simp only [Function.comp_apply]
            by_cases hcj : c < 2 ^ (j + 1) - 1
            · rw [getDd_map_range _ _ (by simpa using hcj), if_pos hcj]
            · rw [getDd_map_range_ge _ _ (by simpa using (not_lt.mp hcj)), if_neg hcj]
          rw [hsnd]
          congr 1
          apply List.map_congr_left
          intro j hj
          rw [List.mem_range] at hj
          have h2j : (2 : Nat) ≤ 2 ^ (j + 1) := by
            calc (2 : Nat) = 2 ^ 1 := by norm_num
              _ ≤ 2 ^ (j + 1) := Nat.pow_le_pow_right (by omega) (by omega)
          by_cases hcj : c < 2 ^ (j + 1) - 1
          · rw [if_pos hcj, if_pos (by omega : c + 1 ≤ 2 ^ (j + 1) - 1)]
            exact W_fuel_congr j K j (c + 1) (le_refl j) (by omega)
          · rw [if_neg hcj, if_neg (by omega : ¬ c + 1 ≤ 2 ^ (j + 1) - 1)]
      rw [hzip]
      -- split the specification list into build, first emission, delegation
      have hsplit : 2 ^ (K + 1 + 1) - 1
          = (2 ^ (K + 1) - 1 + 1) + (2 ^ (K + 1) - 1) := by omega
      rw [hsplit, List.range_add, List.map_append, List.range_succ, List.map_append,
        List.map_map]
      have heqA : ((List.range (2 ^ (K + 1) - 1)).map
            fun q => ((none : Option α), tS (K + 1) (1 + q)))
          = (List.range (2 ^ (K + 1) - 1)).map fun p =>
              (if p < 2 ^ (K + 1) - 1 then none
               else some (f^[2 ^ (K + 1 + 1) - 2 - p] x), W (K + 1) (K + 1) (p + 1)) := by
        apply List.map_congr_left
        intro p hp
        rw [List.mem_range] at hp
        rw [if_pos hp, W_succ, if_pos (by omega)]
        refine congrArg₂ Prod.mk rfl (congrArg (tS (K + 1)) (by omega))
      have heqB : ([(some (f^[2 ^ (K + 1) - 1] x), (0 : Nat))] : List (Option α × Nat))
          = [((fun p => (if p < 2 ^ (K + 1) - 1 then none
               else some (f^[2 ^ (K + 1 + 1) - 2 - p] x),
               W (K + 1) (K + 1) (p + 1))) (2 ^ (K + 1) - 1))] := by
        have hW : W (K + 1) (K + 1) (2 ^ (K + 1) - 1 + 1) = 0 := by
          rw [W_succ, if_neg (by omega), if_pos (by omega)]
        rw [show (2 ^ (K + 1) - 1 + 1) = 2 ^ (K + 1) by omega] at hW
        simp only [if_neg (show ¬ (2 ^ (K + 1) - 1 < 2 ^ (K + 1) - 1) by omega)]
        rw [show (2 ^ (K + 1) - 1 + 1) = 2 ^ (K + 1) by omega, hW]
        refine congrArg (fun o => [(o, (0 : Nat))]) ?_
        exact congrArg (fun t => some (f^[t] x)) (by omega)
      have heqC : ((List.range (2 ^ (K + 1) - 1)).map fun c =>
            (some (f^[2 ^ (K + 1) - 2 - c] x), W (K + 1) (K + 1) (2 ^ (K + 1) + c + 1)))
          = (List.range (2 ^ (K + 1) - 1)).map
              ((fun p => (if p < 2 ^ (K + 1) - 1 then none
                else some (f^[2 ^ (K + 1 + 1) - 2 - p] x),
                W (K + 1) (K + 1) (p + 1))) ∘ fun c => 2 ^ (K + 1) - 1 + 1 + c) := by
        apply List.map_congr_left
        intro c hc
        rw [List.mem_range] at hc
        simp only [Function.comp_apply]
        have hpc : 2 ^ (K + 1) - 1 + 1 + c = 2 ^ (K + 1) + c := by omega
        rw [hpc, if_neg (by omega)]
        refine congrArg₂ Prod.mk ?_ (congrArg (W (K + 1) (K + 1)) (by omega))
        exact congrArg (fun t => some (f^[t] x)) (by omega)
      rw [heqA, heqB, heqC, List.map_singleton]

theorem listmap_range_sum (F : Nat → Nat) (n : Nat) :
    ((List.range n).map F).sum = ∑ p ∈ Finset.range n, F p := by
  induction n with
  | zero => rfl
  | succ n ih =>
    rw [List.range_succ, List.map_append, List.sum_append, Finset.sum_range_succ, ih]
    simp

/-- Output sequence of the pebbler, positionally: `Pending` before position
`2^k − 1`, then the chain values in descending order. -/
theorem P_spec {α : Type} (f : α → α) (k : Nat) (x : α) :
    P f k (some x) = (List.range (2 ^ (k + 1) - 1)).map fun p =>
      if p < 2 ^ k - 1 then none else some (f^[2 ^ (k + 1) - 2 - p] x) := by
  rw [P, PC_spec, List.map_map]
  rfl

/-- Work sequence of the pebbler, positionally: round `p + 1` performs
`W k k (p + 1)` one-way-function evaluations. -/
theorem Pwork_spec {α : Type} (f : α → α) (k : Nat) (x : α) :
    Pwork f k (some x) = (List.range (2 ^ (k + 1) - 1)).map fun p => W k k (p + 1) := by
  rw [Pwork, PC_spec, List.map_map]
  rfl

theorem W_eq_tS {k r : Nat} (h1 : 1 ≤ r) (h2 : r ≤ 2 ^ k - 1) : W k k r = tS k r := by
  cases k with
  | zero =>
    exfalso
    norm_num at h2
    omega
  | succ K => rw [W_succ, if_pos h2]

theorem geom_sum_aux : ∀ k : Nat,
    (∑ j ∈ Finset.range k, j * 2 ^ (j - 1)) + 2 ^ k = k * 2 ^ (k - 1) + 1 := by
  intro k
  induction k with
  | zero => rfl
  | succ k ih =>
    rw [Finset.sum_range_succ]
    cases Nat.eq_zero_or_pos k with
    | inl h0 => subst h0; decide
    | inr hpos =>
      have hp1 : 2 ^ k = 2 * 2 ^ (k - 1) := by
        rw [← pow_succ']
        congr 1
        omega
      have hp2 : 2 ^ (k + 1) = 2 * 2 ^ k := by rw [← pow_succ']
      have hs : (k + 1) - 1 = k := by omega
      rw [hs]
      have hm1 : k * 2 ^ k = 2 * (k * 2 ^ (k - 1)) := by rw [hp1]; ring
      have hm2 : (k + 1) * 2 ^ k = k * 2 ^ k + 2 ^ k := by ring
      omega

/-- Total work of the full traversal of an order-`k` pebbler:
`k · 2^(k−1)` one-way-function evaluations. -/
theorem W_total : ∀ k : Nat,
    (∑ r ∈ Finset.Ico 1 (2 ^ (k + 1)), W k k r) = k * 2 ^ (k - 1) := by
  intro k
  induction k using Nat.strong_induction_on with
  | _ k ih =>
    cases k with
    | zero => decide
    | succ K =>
      have hn2 : (2 : Nat) ≤ 2 ^ (K + 1) := by
        calc (2 : Nat) = 2 ^ 1 := by norm_num
          _ ≤ 2 ^ (K + 1) := Nat.pow_le_pow_right (by omega) (by omega)
      have hnn : 2 ^ (K + 1 + 1) = 2 * 2 ^ (K + 1) := by rw [← pow_succ']
      -- split at the first emission round
      rw [← Finset.sum_Ico_consecutive (fun r => W (K + 1) (K + 1) r) (m := 1)
        (n := 2 ^ (K + 1)) (k := 2 ^ (K + 1 + 1)) (by omega) (by omega)]
      have hbuild : (∑ r ∈ Finset.Ico 1 (2 ^ (K + 1)), W (K + 1) (K + 1) r)
          = 2 ^ (K + 1) - 1 := by
        have hpt : ∀ r ∈ Finset.Ico 1 (2 ^ (K + 1)),
            W (K + 1) (K + 1) r = tS (K + 1) r := by
          intro r hr
          rw [Finset.mem_Ico] at hr
          exact W_eq_tS hr.1 (by omega)
        rw [Finset.sum_congr rfl hpt]
        exact tSsum_closed (K + 1)
      rw [hbuild]
      -- the emission rounds
      have hemit : (∑ r ∈ Finset.Ico (2 ^ (K + 1)) (2 ^ (K + 1 + 1)), W (K + 1) (K + 1) r)
          = ∑ j ∈ Finset.range (K + 1), j * 2 ^ (j - 1) := by
        rw [Finset.sum_eq_sum_Ico_succ_bot (by omega)]
        have hW0 : W (K + 1) (K + 1) (2 ^ (K + 1)) = 0 := by
          rw [W_succ, if_neg (by omega), if_pos rfl]
        rw [hW0, Nat.zero_add, Finset.sum_Ico_eq_sum_range]
        have hlen : 2 ^ (K + 1 + 1) - (2 ^ (K + 1) + 1) = 2 ^ (K + 1) - 1 := by omega
        rw [hlen]
        have hpt : ∀ c ∈ Finset.range (2 ^ (K + 1) - 1),
            W (K + 1) (K + 1) (2 ^ (K + 1) + 1 + c)
              = ∑ j ∈ Finset.range (K + 1),
                  (if c + 1 ≤ 2 ^ (j + 1) - 1 then W j j (c + 1) else 0) := by
          intro c hc
          rw [Finset.mem_range] at hc
          rw [W_succ, if_neg (by omega), if_neg (by omega)]
          have harg : 2 ^ (K + 1) + 1 + c - 2 ^ (K + 1) = c + 1 := by omega
          rw [harg, listmap_range_sum]
          apply Finset.sum_congr rfl
          intro j hj
          rw [Finset.mem_range] at hj
          by_cases hcj : c + 1 ≤ 2 ^ (j + 1) - 1
          · rw [if_pos hcj, if_pos hcj]
            exact W_fuel_congr K j j (c + 1) (by omega) (le_refl j)
          · rw [if_neg hcj, if_neg hcj]
        rw [Finset.sum_congr rfl hpt, Finset.sum_comm]
        apply Finset.sum_congr rfl
        intro j hj
        rw [Finset.mem_range] at hj
        have hsub : Finset.range (2 ^ (j + 1) - 1) ⊆ Finset.range (2 ^ (K + 1) - 1) := by
          apply Finset.range_subset.mpr
          have : 2 ^ (j + 1) ≤ 2 ^ (K + 1) := Nat.pow_le_pow_right (by omega) (by omega)
          omega
        rw [← Finset.sum_subset hsub (by
          intro c hc1 hc2
          rw [Finset.mem_range] at hc1
          rw [Finset.mem_range, not_lt] at hc2
          rw [if_neg (by omega)])]
        have hin : ∀ c ∈ Finset.range (2 ^ (j + 1) - 1),
            (if c + 1 ≤ 2 ^ (j + 1) - 1 then W j j (c + 1) else 0) = W j j (c + 1) := by
          intro c hc
          rw [Finset.mem_range] at hc
          rw [if_pos (by omega)]
        rw [Finset.sum_congr rfl hin]
        -- the inner sum is the total work of the order-j pebbler
        have hreindex : (∑ c ∈ Finset.range (2 ^ (j + 1) - 1), W j j (c + 1))
            = ∑ r ∈ Finset.Ico 1 (2 ^ (j + 1)), W j j r := by
          rw [Finset.sum_Ico_eq_sum_range]
          apply Finset.sum_congr rfl
          intro c _
          congr 1
          omega
        rw [hreindex, ih j (by omega)]
      rw [hemit]
      have hg := geom_sum_aux (K + 1)
      have hs : (K + 1) - 1 = K := by omega
      rw [hs] at hg
      have hp1 : 2 ^ (K + 1) = 2 * 2 ^ K := by rw [← pow_succ']
      have hRR : (K + 1) * 2 ^ (K + 1 - 1) = (K + 1) * 2 ^ K := rfl
      omega

/-- Number of populated slots in a slot list. -/
def countSome {α : Type} (l : List (Option α)) : Nat := (l.filterMap id).length

/-- Live storage per round of a full traversal of `P(k, x)`: entry `ρ − 1` is
the number of Blocks held after round `ρ` in this pebbler's slot list together
with the slot lists of its still-active (not yet exhausted) sub-pebblers,
which are created when the delegation loop starts and dropped once their
round count `2^(j+1) − 1` is over.  The slot list of an order-`k` pebbler
stays in scope (and fully populated) for the whole delegation loop, exactly
as `y` does in the Python generator frame. -/
def liveList {α : Type} (f : α → α) : Nat → Nat → Option α → List Nat
  | _, 0, x => [countSome [x]]
  | 0, _ + 1, _ => []
  | fuel + 1, k + 1, x =>
    ((List.range' 1 (2 ^ (k + 1) - 1)).map fun r =>
      countSome (advMany f (((List.range' 1 r).map (tS (k + 1))).sum)
        (pebInit (k + 1) x)).y)
    ++ [countSome (advMany f (((List.range' 1 (2 ^ (k + 1) - 1)).map (tS (k + 1))).sum)
        (pebInit (k + 1) x)).y]
    ++ ((List.range' 1 (2 ^ (k + 1) - 1)).map fun c =>
        countSome (advMany f (((List.range' 1 (2 ^ (k + 1) - 1)).map (tS (k + 1))).sum)
          (pebInit (k + 1) x)).y
        + ((List.range (k + 1)).map fun j =>
            if c ≤ 2 ^ (j + 1) - 1 then
              (liveList f fuel j
                ((advMany f (((List.range' 1 (2 ^ (k + 1) - 1)).map (tS (k + 1))).sum)
                  (pebInit (k + 1) x)).y.getD (j + 1) none)).getD (c - 1) 0
            else 0).sum)

/-- Live storage per round of the order-`k` pebbler. -/
def live {α : Type} (f : α → α) (k : Nat) (x : Option α) : List Nat := liveList f k k x

example : live Nat.succ 0 (some 0) = [1] := by decide
example : live Nat.succ 1 (some 0) = [2, 2, 3] := by decide

/-- Python-level errors relevant to constructing and stepping the pebbler. -/
inductive PyErr where
  | typeError
  | configurationError
  deriving Repr, DecidableEq

/-- A suspended generator object: the order and seed it was called with. -/
structure GenHandle (α : Type) where
  order : Int
  seed : α
  deriving Repr, DecidableEq

/-- Calling the generator function `P(k, x)` allocates a suspended generator
and executes none of the body (Python semantics of a generator call), so
construction succeeds for every order, including invalid ones. -/
def Pcreate {α : Type} (k : Int) (x : α) : Except PyErr (GenHandle α) :=
  Except.ok ⟨k, x⟩

/-- The first `next()` on the generator runs the body up to the first
`yield`.  For a negative order `k`, `range(1, 2**k)` receives the
non-integer `2**k < 1` and raises `TypeError` before anything is yielded;
for a nonnegative order the first round output is produced. -/
def PstepFirst {α : Type} (f : α → α) (k : Int) (x : α) : Except PyErr (Option α) :=
  if k < 0 then Except.error PyErr.typeError
  else Except.ok ((P f k.toNat (some x)).getD 0 none)

/-- Output of the order-`j` sub-pebbler (seeded from slot `j+1` of the parent)
at delegation round `d`: a value exactly when `2^j ≤ d < 2^(j+1)`, and that
value is the parent's chain value `x_{2^k − 1 − d}`. -/
theorem subOut_getD {α : Type} (f : α → α) {k j d : Nat} (x : α) (hj : j < k)
    (h1 : 1 ≤ d) (hd : d ≤ 2 ^ k - 1) :
    (P f j (some (f^[2 ^ k - 2 ^ (j + 1)] x))).getD (d - 1) none
      = if 2 ^ j ≤ d ∧ d < 2 ^ (j + 1) then some (f^[2 ^ k - 1 - d] x) else none := by
  have h2j : (2 : Nat) ≤ 2 ^ (j + 1) := by
    calc (2 : Nat) = 2 ^ 1 := by norm_num
      _ ≤ 2 ^ (j + 1) := Nat.pow_le_pow_right (by omega) (by omega)
  have hjj : 2 ^ (j + 1) = 2 * 2 ^ j := by rw [← pow_succ']
  have hple : 2 ^ (j + 1) ≤ 2 ^ k := Nat.pow_le_pow_right (by omega) (by omega)
  rw [P_spec]
  by_cases hin : d - 1 < 2 ^ (j + 1) - 1
  · rw [getDd_map_range _ _ hin]
    by_cases hlow : d - 1 < 2 ^ j - 1
    · rw [if_pos hlow, if_neg (by omega)]
    · rw [if_neg hlow, if_pos (by constructor <;> omega)]
      rw [← Function.iterate_add_apply]
      exact congrArg (fun t => some (f^[t] x)) (by omega)
  · rw [getDd_map_range_ge _ _ (by omega), if_neg (by omega)]

/-- Value emitted at overall round `2^k + d` of the pebbler (`d = 0` is the
first emission): the chain value `x_{2^k − 1 − d}`. -/
theorem P_getD_value {α : Type} (f : α → α) {k d : Nat} (x : α) (hd : d ≤ 2 ^ k - 1) :
    (P f k (some x)).getD (2 ^ k - 1 + d) none = some (f^[2 ^ k - 1 - d] x) := by
  have h1k : (1 : Nat) ≤ 2 ^ k := Nat.one_le_two_pow
  have hkk : 2 ^ (k + 1) = 2 * 2 ^ k := by rw [← pow_succ']
  rw [P_spec, getDd_map_range _ _ (by omega), if_neg (by omega)]
  exact congrArg (fun t => some (f^[t] x)) (by omega)

/-- C1.  For every order `k ≥ 0` and every seed `x`, the pebbler `P(k, x)`
yields exactly `2^(k+1) − 1` results in total: first `2^k − 1` `Pending`
results, then `2^k` values in strictly descending index order
`x_{n−1}, x_{n−2}, …, x_0` with `n = 2^k`, where `x_i = f^i(x)` (so `x_0 = x`
and `x_{i+1} = f(x_i)`); in particular for order `0` the build phase is empty
and the single round yields the seed itself. -/
theorem pebbler_emits_chain_in_reverse {α : Type} (f : α → α) (k : Nat) (x : α) :
    P f k (some x)
      = List.replicate (2 ^ k - 1) none
        ++ (List.range (2 ^ k)).map (fun c => some (f^[2 ^ k - 1 - c] x))
    ∧ (P f k (some x)).length = 2 ^ (k + 1) - 1 := by
  have h1k : (1 : Nat) ≤ 2 ^ k := Nat.one_le_two_pow
  have hkk : 2 ^ (k + 1) = 2 * 2 ^ k := by rw [← pow_succ']
  have hmain : P f k (some x) = List.replicate (2 ^ k - 1) none
      ++ (List.range (2 ^ k)).map (fun c => some (f^[2 ^ k - 1 - c] x)) := by
    rw [P_spec]
    have hsplit : 2 ^ (k + 1) - 1 = (2 ^ k - 1) + 2 ^ k := by omega
    rw [hsplit, List.range_add, List.map_append, List.map_map]
    refine congrArg₂ (· ++ ·) ?_ ?_
    · have hpt : ∀ p ∈ List.range (2 ^ k - 1),
          (if p < 2 ^ k - 1 then none else some (f^[2 ^ (k + 1) - 2 - p] x))
            = (fun _ => (none : Option α)) p := by
        intro p hp
        rw [List.mem_range] at hp
        rw [if_pos hp]
      rw [List.map_congr_left hpt, List.map_const', List.length_range]
    · apply List.map_congr_left
      intro c hc
      rw [List.mem_range] at hc
      simp only [Function.comp_apply]
      rw [if_neg (by omega)]
      exact congrArg (fun t => some (f^[t] x)) (by omega)
  refine ⟨hmain, ?_⟩
  rw [hmain]
  rw [List.length_append, List.length_replicate, List.length_map, List.length_range]
  omega

/-- C2, counterexample.  The schedule formula leaves the claimed range
`[0, ⌈k/2⌉]`: at order `2`, round `3` it performs `2` advances while
`⌈2/2⌉ = 1`. -/
theorem tS_bound_counterexample : tS 2 3 = 2 ∧ ¬ tS 2 3 ≤ (2 + 1) / 2 := by decide

/-- C2, amended.  For every order `k` and round `r ∈ [1, 2^k − 1]` the
schedule formula returns an integer in `[0, ⌊k/2⌋ + 1]` (the bound is tight
for even `k`, and equals `⌈k/2⌉` for odd `k`), and the sum of `tS k r` over
`r = 1 … 2^k − 1` equals exactly `2^k − 1`. -/
theorem tS_bounded_and_sums_to_chain_length :
    (∀ k r, 1 ≤ r → r ≤ 2 ^ k - 1 → tS k r ≤ k / 2 + 1)
    ∧ (∀ k, (∑ r ∈ Finset.Ico 1 (2 ^ k), tS k r) = 2 ^ k - 1) := by
  constructor
  · intro k r h1 h2
    rw [tS]
    by_cases hc : r < 2 ^ (k - 1)
    · rw [if_pos hc]
      omega
    · rw [if_neg hc]
      omega
  · intro k
    exact tSsum_closed k

/-- C2, witness. -/
theorem tS_bounded_witness :
    tS 2 3 ≤ 2 / 2 + 1 ∧ (∑ r ∈ Finset.Ico 1 (2 ^ 2), tS 2 r) = 2 ^ 2 - 1 :=
  ⟨tS_bounded_and_sums_to_chain_length.1 2 3 (by decide) (by decide),
   tS_bounded_and_sums_to_chain_length.2 2⟩

/-- C3, counterexample.  In round `4` of the order-`2` traversal (the first
emission round) the engine performs `0` evaluations while `tS 2 4 = 1`, so
the per-round work does not equal `advances(k, r)` on all of `[1, 2n − 1]`. -/
theorem round_work_counterexample :
    (Pwork Nat.succ 2 (some 0)).getD 3 0 = 0 ∧ tS 2 4 = 1 := by decide

/-- C3, amended.  For every order `k` and round `r ∈ [1, 2^k − 1]` — the
build phase, during which no sub-engine exists — the number of one-way
function evaluations performed in round `r` equals `tS k r`. -/
theorem build_round_work_matches_schedule {α : Type} (f : α → α) (k : Nat) (x : α)
    (r : Nat) (h1 : 1 ≤ r) (h2 : r ≤ 2 ^ k - 1) :
    (Pwork f k (some x)).getD (r - 1) 0 = tS k r := by
  have h1k : (1 : Nat) ≤ 2 ^ k := Nat.one_le_two_pow
  have hkk : 2 ^ (k + 1) = 2 * 2 ^ k := by rw [← pow_succ']
  rw [Pwork_spec, getDd_map_range _ _ (show r - 1 < 2 ^ (k + 1) - 1 by omega)]
  rw [show r - 1 + 1 = r by omega]
  exact W_eq_tS h1 h2

/-- C3, witness. -/
theorem build_round_work_witness :
    (Pwork Nat.succ 2 (some 0)).getD 1 0 = tS 2 2 :=
  build_round_work_matches_schedule Nat.succ 2 0 2 (by decide) (by decide)

/-- C4, counterexample.  The order-`2` traversal performs `4` evaluations in
total (the order-`1` sub-engine recomputes `x_1` from the seed), not
`n − 1 = 3`. -/
theorem total_work_counterexample :
    (Pwork Nat.succ 2 (some 0)).sum = 4 ∧ 2 ^ 2 - 1 = 3 := by decide

/-- C4, amended.  The total number of one-way-function evaluations across the
whole traversal of an order-`k` engine (counting the build phases of all
recursively spawned sub-engines) equals `k · 2^(k−1)`; the build phase alone
accounts for `2^k − 1` of them. -/
theorem total_work_closed_form {α : Type} (f : α → α) (k : Nat) (x : α) :
    (Pwork f k (some x)).sum = k * 2 ^ (k - 1) := by
  rw [Pwork_spec, listmap_range_sum]
  have hre : (∑ p ∈ Finset.range (2 ^ (k + 1) - 1), W k k (p + 1))
      = ∑ r ∈ Finset.Ico 1 (2 ^ (k + 1)), W k k r := by
    rw [Finset.sum_Ico_eq_sum_range]
    have h1k : (1 : Nat) ≤ 2 ^ (k + 1) := Nat.one_le_two_pow
    apply Finset.sum_congr (by congr 1)
    intro p _
    congr 1
    omega
  rw [hre, W_total]

/-- C5.  The recursive pebbler does not keep live storage within `k + 1`
Blocks: in the order-`2` traversal, after round `5` the parent's fully
populated 3-slot list is live together with the order-`0` sub-pebbler's slot
(1 Block) and the order-`1` sub-pebbler's two populated slots — `6 > 3`
Blocks in total (`4 > 3` even counting distinct values, as the order-`1`
sub-pebbler has recomputed `x_1`). -/
theorem live_storage_exceeds_bound :
    live Nat.succ 2 (some 0) = [1, 2, 3, 3, 6, 5, 6]
    ∧ 2 + 1 < (live Nat.succ 2 (some 0)).getD 4 0 := by decide

/-- C6.  For `k ≥ 1` and every emission round after the first (delegation
round `d ∈ [1, 2^k − 1]`, overall position `2^k − 1 + d`), the value produced
by the engine equals the result of polling its sub-engines in ascending order
of their orders and taking the first non-`Pending` result: there is a
sub-engine index `j0` whose output at that column is a value, all lower
sub-engines are `Pending` there, the engine emits exactly that value, and
every sub-engine offering a non-`Pending` result has index `≥ j0` (the
smallest order is selected). -/
theorem emission_selects_lowest_ready_suborder {α : Type} (f : α → α) (k d : Nat)
    (x : α) (hk : 1 ≤ k) (h1 : 1 ≤ d) (h2 : d ≤ 2 ^ k - 1) :
    ∃ j0 v, j0 < k
      ∧ (P f j0 (some (f^[2 ^ k - 2 ^ (j0 + 1)] x))).getD (d - 1) none = some v
      ∧ (∀ j', j' < j0 →
          (P f j' (some (f^[2 ^ k - 2 ^ (j' + 1)] x))).getD (d - 1) none = none)
      ∧ (P f k (some x)).getD (2 ^ k - 1 + d) none = some v
      ∧ (∀ j', j' < k →
          ((P f j' (some (f^[2 ^ k - 2 ^ (j' + 1)] x))).getD (d - 1) none).isSome = true
          → j0 ≤ j') := by
  have hd0 : d ≠ 0 := by omega
  have hbl1 : 1 ≤ bitLen d := bitLen_pos hd0
  have hlow := two_pow_pred_le_of_bitLen d hd0
  have hhigh := bitLen_lt_two_pow d
  have hj0k : bitLen d - 1 < k := by
    have h1k : (1 : Nat) ≤ 2 ^ k := Nat.one_le_two_pow
    have : bitLen d ≤ k := bitLen_le_of_lt_two_pow (by omega)
    omega
  have hblj : bitLen d = (bitLen d - 1) + 1 := by omega
  refine ⟨bitLen d - 1, f^[2 ^ k - 1 - d] x, hj0k, ?_, ?_, ?_, ?_⟩
  · rw [subOut_getD f x hj0k h1 h2, if_pos ⟨hlow, by rw [← hblj]; exact hhigh⟩]
  · intro j' hj'
    rw [subOut_getD f x (by omega) h1 h2, if_neg]
    intro hcon
    have hmono : 2 ^ (j' + 1) ≤ 2 ^ (bitLen d - 1) :=
      Nat.pow_le_pow_right (by omega) (by omega)
    omega
  · exact P_getD_value f x h2
  · intro j' hj'k hsome
    rw [subOut_getD f x hj'k h1 h2] at hsome
    by_cases hcond : 2 ^ j' ≤ d ∧ d < 2 ^ (j' + 1)
    · have := bitLen_eq_succ hcond.1 hcond.2
      omega
    · rw [if_neg hcond] at hsome
      exact absurd hsome (by simp)

/-- C6, witness (order `2`, delegation round `3`: the order-`1` sub-engine is
the lowest ready one). -/
theorem emission_selects_lowest_ready_suborder_witness :
    ∃ j0 v, j0 < 2
      ∧ (P Nat.succ j0 (some (Nat.succ^[2 ^ 2 - 2 ^ (j0 + 1)] 0))).getD (3 - 1) none
          = some v
      ∧ (∀ j', j' < j0 →
          (P Nat.succ j' (some (Nat.succ^[2 ^ 2 - 2 ^ (j' + 1)] 0))).getD (3 - 1) none
            = none)
      ∧ (P Nat.succ 2 (some 0)).getD (2 ^ 2 - 1 + 3) none = some v
      ∧ (∀ j', j' < 2 →
          ((P Nat.succ j' (some (Nat.succ^[2 ^ 2 - 2 ^ (j' + 1)] 0))).getD (3 - 1)
            none).isSome = true → j0 ≤ j') :=
  emission_selects_lowest_ready_suborder Nat.succ 2 3 0 (by decide) (by decide) (by decide)

/-- C7.  The round schedule is a pure function of `(order, round)` and never
depends on the Block contents: for any two seeds (even over different Block
types and different one-way functions) the `Pending`-versus-value pattern of
the outputs is identical, and the per-round evaluation counts are identical
— indeed equal to the pure schedule function `W`. -/
theorem round_schedule_seed_independent {α β : Type} (f : α → α) (g : β → β)
    (k : Nat) (x : α) (x' : β) :
    (P f k (some x)).map Option.isSome = (P g k (some x')).map Option.isSome
    ∧ Pwork f k (some x) = (List.range (2 ^ (k + 1) - 1)).map (fun p => W k k (p + 1))
    ∧ Pwork f k (some x) = Pwork g k (some x') := by
  refine ⟨?_, Pwork_spec f k x, ?_⟩
  · rw [P_spec, P_spec, List.map_map, List.map_map]
    apply List.map_congr_left
    intro p hp
    simp only [Function.comp_apply]
    by_cases hc : p < 2 ^ k - 1
    · rw [if_pos hc, if_pos hc]
      rfl
    · rw [if_neg hc, if_neg hc]
      rfl
  · rw [Pwork_spec, Pwork_spec]

/-- C8.  For `k ≥ 1`, when the build phase completes after round `2^k − 1`:
slot `j` holds `f^(2^k − 2^j)(x)` for every `j ∈ [0, k − 1]`, slot `k` still
holds the seed unchanged (and `f^(2^k − 2^k) x = x`, so one uniform formula
covers all slots except that slot `k` is literally the untouched seed), the
first emitted value — at position `2^k − 1` — is `x_{n−1} = f^(2^k − 1)(x)`,
and the engine then delegates to `k` sub-engines where the sub-engine of
order `j` is seeded from the value held in slot `j + 1`. -/
theorem build_completion_slots_and_sub_seeding {α : Type} (f : α → α) (k : Nat)
    (x : α) (hk : 1 ≤ k) :
    (buildFrom f k (2 ^ k - 1) 1 (pebInit k (some x))).1.y
        = (List.range (k + 1)).map (fun m =>
            if m = k then some x else some (f^[2 ^ k - 2 ^ m] x))
    ∧ (P f k (some x)).getD (2 ^ k - 1) none = some (f^[2 ^ k - 1] x)
    ∧ PC f k k (some x)
        = (buildFrom f k (2 ^ k - 1) 1 (pebInit k (some x))).2
          ++ [(some (f^[2 ^ k - 1] x), 0)]
          ++ zipCols ((List.range k).map fun j =>
              PC f j j (some (f^[2 ^ k - 2 ^ (j + 1)] x))) := by
  obtain ⟨K, rfl⟩ : ∃ K, k = K + 1 := ⟨k - 1, by omega⟩
  have hsum : (∑ q ∈ Finset.range (2 ^ (K + 1) - 1), tS (K + 1) (1 + q))
      = 2 ^ (K + 1) - 1 := by
    have h := tSsum_closed (K + 1)
    rw [tSsum, Finset.sum_Ico_eq_sum_range] at h
    simpa using h
  have hbp1 : (buildFrom f (K + 1) (2 ^ (K + 1) - 1) 1 (pebInit (K + 1) (some x))).1
      = ⟨stageY f (K + 1) x 0 (2 ^ (K + 1) - 1), 0, 0⟩ := by
    rw [buildFrom_fst, hsum]
    exact advMany_build_final f x (by omega)
  have hslot : ∀ m, 1 ≤ m → m ≤ K + 1 →
      (stageY f (K + 1) x 0 (2 ^ (K + 1) - 1)).getD m none
        = some (f^[2 ^ (K + 1) - 2 ^ m] x) := by
    intro m h1 h2
    rw [stageY, getD_map_range _ (show m < K + 1 + 1 by omega)]
    rw [if_neg (by omega), if_neg (by omega)]
    by_cases hm : m = K + 1
    · rw [if_pos hm, hm, Nat.sub_self]
      simp
    · rw [if_neg hm]
  refine ⟨?_, ?_, ?_⟩
  · rw [hbp1]
    show stageY f (K + 1) x 0 (2 ^ (K + 1) - 1) = _
    rw [stageY]
    apply List.map_congr_left
    intro m hm
    rw [List.mem_range] at hm
    by_cases hc : m = K + 1
    · subst hc
      rw [if_neg (show ¬ K + 1 < 0 by omega), if_neg (show K + 1 ≠ 0 by omega)]
    · rw [if_neg (show ¬ m < 0 by omega)]
      by_cases hm0 : m = 0
      · subst hm0
        rw [if_pos rfl, if_neg hc]
        exact congrArg (fun t => some (f^[t] x)) (by norm_num)
      · rw [if_neg hm0, if_neg hc]
  · have h := P_getD_value f (k := K + 1) (d := 0) x (by omega)
    rw [Nat.add_zero, Nat.sub_zero] at h
    exact h
  · rw [PC_succ]
    refine congrArg₂ (· ++ ·) (congrArg₂ (· ++ ·) rfl ?_) ?_
    · have hy0 : (stageY f (K + 1) x 0 (2 ^ (K + 1) - 1)).getD 0 none
          = some (f^[2 ^ (K + 1) - 1] x) := stageY_getD_self f x _ (by omega)
      rw [hbp1]
      show [((stageY f (K + 1) x 0 (2 ^ (K + 1) - 1)).getD 0 none, (0 : Nat))] = _
      rw [hy0]
    · congr 1
      apply List.map_congr_left
      intro j hj
      rw [List.mem_range] at hj
      have hseed : (buildFrom f (K + 1) (2 ^ (K + 1) - 1) 1
          (pebInit (K + 1) (some x))).1.y.getD (j + 1) none
          = some (f^[2 ^ (K + 1) - 2 ^ (j + 1)] x) := by
        rw [hbp1]
        exact hslot (j + 1) (by omega) (by omega)
      rw [hseed]
      exact PC_fuel_congr f K j j _ (by omega) (le_refl j)

/-- C8, witness. -/
theorem build_completion_witness :
    (buildFrom Nat.succ 2 (2 ^ 2 - 1) 1 (pebInit 2 (some 0))).1.y
        = (List.range (2 + 1)).map (fun m =>
            if m = 2 then some 0 else some (Nat.succ^[2 ^ 2 - 2 ^ m] 0))
    ∧ (P Nat.succ 2 (some 0)).getD (2 ^ 2 - 1) none = some (Nat.succ^[2 ^ 2 - 1] 0)
    ∧ PC Nat.succ 2 2 (some 0)
        = (buildFrom Nat.succ 2 (2 ^ 2 - 1) 1 (pebInit 2 (some 0))).2
          ++ [(some (Nat.succ^[2 ^ 2 - 1] 0), 0)]
          ++ zipCols ((List.range 2).map fun j =>
              PC Nat.succ j j (some (Nat.succ^[2 ^ 2 - 2 ^ (j + 1)] 0))) :=
  build_completion_slots_and_sub_seeding Nat.succ 2 0 (by decide)

/-- C9, counterexample.  Creating the pebbler with the invalid order `−1`
raises nothing at construction (a Python generator call does not run the
body); the failure is a `TypeError` at the first step of the traversal. -/
theorem negative_order_accepted_at_construction :
    Pcreate (-1 : Int) (0 : Nat) = Except.ok ⟨-1, 0⟩
    ∧ PstepFirst Nat.succ (-1 : Int) 0 = Except.error PyErr.typeError :=
  ⟨rfl, rfl⟩

/-- C9, amended.  For every negative order, creating the pebbler succeeds
(no `ConfigurationError` — or any error — is raised at construction), and the
invalid order instead causes a `TypeError` mid-traversal, at the very first
step. -/
theorem negative_order_fails_mid_traversal {α : Type} (f : α → α) (k : Int) (x : α)
    (hk : k < 0) :
    Pcreate k x = Except.ok ⟨k, x⟩
    ∧ PstepFirst f k x = Except.error PyErr.typeError :=
  ⟨rfl, by rw [PstepFirst, if_pos hk]⟩

/-- C9, witness. -/
theorem negative_order_fails_mid_traversal_witness :
    Pcreate (-2 : Int) (5 : Nat) = Except.ok ⟨-2, 5⟩
    ∧ PstepFirst Nat.succ (-2 : Int) 5 = Except.error PyErr.typeError :=
  negative_order_fails_mid_traversal Nat.succ (-2) 5 (by decide)

/-- C10.  For `k ≥ 1` and every delegation round `d ∈ [1, 2^k − 1]`, the
order-`j` sub-engine is non-`Pending` precisely when `2^j ≤ d < 2^(j+1)`;
these intervals are pairwise disjoint and cover all delegation rounds, so in
every such round exactly one sub-engine yields a value and the selection
`next(filter(None, v))` always finds one: the engine's output at that round
is a value. -/
theorem delegation_columns_partition {α : Type} (f : α → α) (k d : Nat) (x : α)
    (hk : 1 ≤ k) (h1 : 1 ≤ d) (h2 : d ≤ 2 ^ k - 1) :
    (∀ j, j < k →
      (((P f j (some (f^[2 ^ k - 2 ^ (j + 1)] x))).getD (d - 1) none).isSome = true
        ↔ (2 ^ j ≤ d ∧ d < 2 ^ (j + 1))))
    ∧ (∃! j, j < k
        ∧ ((P f j (some (f^[2 ^ k - 2 ^ (j + 1)] x))).getD (d - 1) none).isSome = true)
    ∧ ((P f k (some x)).getD (2 ^ k - 1 + d) none).isSome = true := by
  have hd0 : d ≠ 0 := by omega
  have hbl1 : 1 ≤ bitLen d := bitLen_pos hd0
  have hlow := two_pow_pred_le_of_bitLen d hd0
  have hhigh := bitLen_lt_two_pow d
  have hj0k : bitLen d - 1 < k := by
    have h1k : (1 : Nat) ≤ 2 ^ k := Nat.one_le_two_pow
    have : bitLen d ≤ k := bitLen_le_of_lt_two_pow (by omega)
    omega
  have hiff : ∀ j, j < k →
      (((P f j (some (f^[2 ^ k - 2 ^ (j + 1)] x))).getD (d - 1) none).isSome = true
        ↔ (2 ^ j ≤ d ∧ d < 2 ^ (j + 1))) := by
    intro j hj
    rw [subOut_getD f x hj h1 h2]
    by_cases hcond : 2 ^ j ≤ d ∧ d < 2 ^ (j + 1)
    · rw [if_pos hcond]
      simp [hcond]
    · rw [if_neg hcond]
      simp [hcond]
  refine ⟨hiff, ⟨bitLen d - 1, ⟨hj0k, ?_⟩, ?_⟩, ?_⟩
  · rw [hiff _ hj0k]
    constructor
    · exact hlow
    · rw [show bitLen d - 1 + 1 = bitLen d by omega]
      exact hhigh
  · intro j' hj'
    obtain ⟨hj'k, hsome⟩ := hj'
    rw [hiff _ hj'k] at hsome
    have := bitLen_eq_succ hsome.1 hsome.2
    omega
  · rw [P_getD_value f x h2]
    rfl

/-- C10, witness (order `3`, delegation round `5`: only the order-`2`
sub-engine is ready). -/
theorem delegation_columns_partition_witness :
    (∀ j, j < 3 →
      (((P Nat.succ j (some (Nat.succ^[2 ^ 3 - 2 ^ (j + 1)] 0))).getD (5 - 1)
          none).isSome = true ↔ (2 ^ j ≤ 5 ∧ 5 < 2 ^ (j + 1))))
    ∧ (∃! j, j < 3
        ∧ ((P Nat.succ j (some (Nat.succ^[2 ^ 3 - 2 ^ (j + 1)] 0))).getD (5 - 1)
            none).isSome = true)
    ∧ ((P Nat.succ 3 (some 0)).getD (2 ^ 3 - 1 + 5) none).isSome = true :=
  delegation_columns_partition Nat.succ 3 5 0 (by decide) (by decide) (by decide)
